import Mathlib

/-!
Shallow embedding of `tools/conf_migration_tool/conf_migrate.py`
(INI-style configuration migration tool), together with theorems
settling the specification claims.

Strings are modelled as `List Char` (`Str`).  The Python regular
expressions are translated into executable Lean functions that mirror
the backtracking behaviour of CPython`s `re` engine on the concrete
patterns used by the source (leftmost alternative wins, greedy and lazy
quantifiers with backtracking).  Character classes are modelled on the
character sets the patterns name: `[ \t]` and Python `\s`
(ASCII whitespace).
-/

set_option maxHeartbeats 1000000

abbrev Str := List Char

/-- Convert a Lean string literal to the `List Char` model. -/
def str (s : String) : Str := s.data

/-- Association-list lookup, modelling Python `dict.get`: first entry wins
(Python dictionaries have unique keys). -/
def assocGet {α : Type} [DecidableEq α] {β : Type} : List (α × β) → α → Option β
  | [], _ => none
  | (k, v) :: rest, a => if k = a then some v else assocGet rest a

/-- The character class `[ \t]` used throughout `rgx_ini_parser`. -/
def isWS (c : Char) : Bool := c == ' ' || c == '\t'

/-- Python `\s` (ASCII whitespace characters). -/
def isPySpace (c : Char) : Bool :=
  c == ' ' || c == '\t' || c == '\n' || c == '\r' || c == '\x0b' || c == '\x0c'

/-- Negation of `isPySpace`, the class `[^\s]`. -/
def notPyS (c : Char) : Bool := !(isPySpace c)

/-- The class `[^\n]`. -/
def notNL (c : Char) : Bool := c != '\n'

/-- `ConfigKind` from the source (an `IntEnum` there). -/
inductive ConfigKind : Type
  | Unknown
  | NewLine
  | Comment
  | Section
  | KeyValue
deriving DecidableEq

/-- `ConfigurationFragment`: a classified, text-preserving unit of the file. -/
structure ConfigurationFragment : Type where
  text : Str
  kind : ConfigKind
  value1 : Str := []
  value2 : Str := []
deriving DecidableEq

/-- The shared `newline_fragment` constant. -/
def newline_fragment : ConfigurationFragment := ⟨['\n'], ConfigKind.NewLine, [], []⟩

/-!
The parser.  `rgx_ini_parser` is the alternation

  `(\n) | [ \t]*(#)[^\n]* | [ \t]*\[[ \t]*(.+?)[ \t]*\][ \t]* |`
  `[ \t]*([^\s]+)[ \t]*=[ \t]*(.*?)[ \t]*(?=\n|$) | [^\n]+`

applied with `finditer`; `_to_fragment` classifies each match by which
group participated.  Each alternative is translated below as a function
from the remaining input to an optional `(fragment, rest)` pair, where
`fragment.text` is exactly the text the regex match consumed.
-/

/-- Alternative 1, `(\n)`: a bare newline. -/
def tryNewline : Str → Option (ConfigurationFragment × Str)
  | [] => none
  | c :: rest => if c = '\n' then some (newline_fragment, rest) else none

/-- Alternative 2, `[ \t]*(#)[^\n]*`: a comment line. -/
def tryComment (s : Str) : Option (ConfigurationFragment × Str) :=
  let w := s.takeWhile isWS
  let r1 := s.dropWhile isWS
  match r1 with
  | c :: _ =>
    if c = '#' then
      some (⟨w ++ r1.takeWhile notNL, ConfigKind.Comment, [], []⟩, r1.dropWhile notNL)
    else none
  | [] => none

/-- Prefix the name of a deeper lazy-search result with the current
character. -/
def sectionCont (c : Char) : Option (Str × Str × Str) → Option (Str × Str × Str)
  | some (nm, tl, r5) => some (c :: nm, tl, r5)
  | none => none

/-- The lazy search `(.+?)[ \t]*\]` of the section alternative: find the
shortest nonempty prefix of non-newline characters after which skipping
`[ \t]*` reaches `]`.  Returns (name, text from after the name through the
closing bracket, rest). -/
def sectionNameSearch : Str → Option (Str × Str × Str)
  | [] => none
  | c :: rest =>
    if c = '\n' then none
    else
      match rest.dropWhile isWS with
      | d :: r5 =>
        if d = ']' then some ([c], rest.takeWhile isWS ++ [']'], r5)
        else sectionCont c (sectionNameSearch rest)
      | [] => sectionCont c (sectionNameSearch rest)

/-- Backtracking of the greedy `[ \t]*` that precedes `(.+?)` in the
section alternative: try the maximal whitespace run first, then move
whitespace characters back into the candidate name one at a time.
`rws` is the (reversed) whitespace still attributed to `[ \t]*`.
Returns (text from after `[` through `]`, name, rest). -/
def sectionGo : Str → Str → Option (Str × Str × Str)
  | rws, r3 =>
    match sectionNameSearch r3 with
    | some (nm, tl, r5) => some (rws.reverse ++ (nm ++ tl), nm, r5)
    | none =>
      match rws with
      | [] => none
      | c :: rws2 => sectionGo rws2 (c :: r3)

/-- Alternative 3, `[ \t]*\[[ \t]*(.+?)[ \t]*\][ \t]*`: a section header. -/
def trySection (s : Str) : Option (ConfigurationFragment × Str) :=
  let w1 := s.takeWhile isWS
  let r1 := s.dropWhile isWS
  match r1 with
  | c :: r2 =>
    if c = '[' then
      match sectionGo (r2.takeWhile isWS).reverse (r2.dropWhile isWS) with
      | some (chunk, nm, r5) =>
        some (⟨w1 ++ '[' :: (chunk ++ r5.takeWhile isWS), ConfigKind.Section, nm, []⟩,
              r5.dropWhile isWS)
      | none => none
    else none
  | [] => none

/-- Backtracking of the greedy `([^\s]+)` against the following
`[ \t]*=`: when the `=` does not follow the maximal non-space run, the
key is the run up to its last internal `=`.  Returns (key, run remainder
after that `=`). -/
def notEq (c : Char) : Bool := !(c == '=')

def splitLastEq (run : Str) : Option (Str × Str) :=
  let rr := run.reverse
  match rr.dropWhile notEq with
  | d :: kr =>
    if d = '=' then
      if kr = [] then none else some (kr.reverse, (rr.takeWhile notEq).reverse)
    else none
  | [] => none

/-- The value part `[ \t]*(.*?)[ \t]*(?=\n|$)` after the `=`: greedy
whitespace, then the lazy value, which ends at the last non-blank
character of the line; the trailing blanks are consumed but the
lookahead leaves the newline in place.  Returns (consumed text, value
group, rest). -/
def valuePart (vs : Str) : Str × Str × Str :=
  let w4 := vs.takeWhile isWS
  let r := vs.dropWhile isWS
  let line := r.takeWhile notNL
  (w4 ++ line, (line.reverse.dropWhile isWS).reverse, r.dropWhile notNL)

/-- The backtracked branch of the key-value alternative: the greedy
`([^\s]+)` did not leave an `=` after the run, so the key shrinks to the
run`s last internal `=` and the run remainder becomes the start of the
value region. -/
def kvCaseB (w1 run r2 : Str) : Option (ConfigurationFragment × Str) :=
  match splitLastEq run with
  | some (k, v0) =>
    let (vc, v, rest) := valuePart (v0 ++ r2)
    some (⟨w1 ++ k ++ '=' :: vc, ConfigKind.KeyValue, k, v⟩, rest)
  | none => none

/-- Alternative 4, `[ \t]*([^\s]+)[ \t]*=[ \t]*(.*?)[ \t]*(?=\n|$)`:
a key-value line. -/
def tryKeyValue (s : Str) : Option (ConfigurationFragment × Str) :=
  let w1 := s.takeWhile isWS
  let r1 := s.dropWhile isWS
  let run := r1.takeWhile notPyS
  let r2 := r1.dropWhile notPyS
  match run with
  | [] => none
  | _ =>
    match r2.dropWhile isWS with
    | d :: r4 =>
      if d = '=' then
        let (vc, v, rest) := valuePart r4
        some (⟨w1 ++ run ++ r2.takeWhile isWS ++ '=' :: vc, ConfigKind.KeyValue, run, v⟩, rest)
      else kvCaseB w1 run r2
    | [] => kvCaseB w1 run r2

/-- Alternative 5, `[^\n]+`: anything else on a non-empty line. -/
def tryUnknown (s : Str) : Option (ConfigurationFragment × Str) :=
  match s.takeWhile notNL with
  | [] => none
  | _ :: _ => some (⟨s.takeWhile notNL, ConfigKind.Unknown, [], []⟩, s.dropWhile notNL)

/-- One `finditer` step: the five alternatives tried in order. -/
def matchFragment (s : Str) : Option (ConfigurationFragment × Str) :=
  match tryNewline s with
  | some r => some r
  | none =>
    match tryComment s with
    | some r => some r
    | none =>
      match trySection s with
      | some r => some r
      | none =>
        match tryKeyValue s with
        | some r => some r
        | none => tryUnknown s

/-- The `finditer` scan: repeatedly match at the current position; if no
alternative matches, `finditer` would advance one character (dropping
it from the output).  Fuel bounds the recursion by the input length. -/
def parseLoop : Nat → Str → List ConfigurationFragment
  | 0, _ => []
  | _ + 1, [] => []
  | fuel + 1, c :: s' =>
    match matchFragment (c :: s') with
    | some (f, r) => f :: parseLoop fuel r
    | none => parseLoop fuel s'

/-- `parse_configuration`. -/
def parse_configuration (s : Str) : List ConfigurationFragment :=
  parseLoop s.length s

/-!
`RedemptionVersion`: parsed from `rgx_version = ^(\d+)\.(\d+)\.(\d+)(.*)`,
compared by the tuple `(major, minor, build, revision)` (Python tuple
comparison, i.e. lexicographic; strings by code point).
-/

structure RedemptionVersion : Type where
  major : Nat
  minor : Nat
  build : Nat
  revision : Str
deriving DecidableEq

/-- Leading run of decimal digits (`\d+` is greedy; the following literal
dot cannot be a digit, so the match is the maximal run). -/
def digitRun (s : Str) : Str × Str := (s.takeWhile Char.isDigit, s.dropWhile Char.isDigit)

/-- Numeric value of a digit run (Python `int`). -/
def digitsToNat (l : Str) : Nat := l.foldl (fun n c => n * 10 + (c.toNat - 48)) 0

/-- `RedemptionVersion.__init__`: `None` models the raised
`RedemptionVersionError`.  The trailing group `(.*)` takes the rest of
the line (`.` does not match a newline). -/
def parseVersion (s : Str) : Option RedemptionVersion :=
  let (d1, r1) := digitRun s
  match d1, r1 with
  | [], _ => none
  | _, '.' :: r2 =>
    let (d2, r3) := digitRun r2
    match d2, r3 with
    | [], _ => none
    | _, '.' :: r4 =>
      let (d3, r5) := digitRun r4
      match d3 with
      | [] => none
      | _ => some ⟨digitsToNat d1, digitsToNat d2, digitsToNat d3, r5.takeWhile notNL⟩
    | _, _ => none
  | _, _ => none

/-- Python string `<` (lexicographic by code point). -/
def strLt : Str → Str → Bool
  | [], [] => false
  | [], _ :: _ => true
  | _ :: _, [] => false
  | c :: cs, d :: ds =>
    if c.toNat < d.toNat then true else if d.toNat < c.toNat then false else strLt cs ds

/-- `RedemptionVersion.__lt__`: lexicographic comparison of
`(major, minor, build, revision)`. -/
def vlt (a b : RedemptionVersion) : Bool :=
  if a.major < b.major then true else if b.major < a.major then false
  else if a.minor < b.minor then true else if b.minor < a.minor then false
  else if a.build < b.build then true else if b.build < a.build then false
  else strLt a.revision b.revision

/-- `RedemptionVersion.__le__` (tuple `<=`, equivalent to `<` or `=`). -/
def vle (a b : RedemptionVersion) : Bool := vlt a b || a == b

/-!
Migration description types (`MigrationKeyOrderType`,
`MigrationSectionOrderType`): the dynamic unions of the source become
tagged variants; Python dictionaries become association lists.
-/

/-- A value of the per-section key dictionary: `RemoveItem` or `UpdateItem`. -/
inductive MigKeyOrder : Type
  | remove
  | update (sec : Option Str) (key : Option Str) (values : Option (List (Str × Str)))
deriving DecidableEq

/-- One element of the iterable form of a section order. -/
inductive MigStep : Type
  | move (name : Str)
  | keys (d : List (Str × MigKeyOrder))
deriving DecidableEq

/-- A value of the migration description: `RemoveItem`, `MoveSection`,
a key dictionary, or an iterable of steps. -/
inductive MigSectionOrder : Type
  | remove
  | moveSection (name : Str)
  | keys (d : List (Str × MigKeyOrder))
  | steps (l : List MigStep)
deriving DecidableEq

abbrev MigrationDesc := List (Str × MigSectionOrder)
abbrev MigrationType := RedemptionVersion × MigrationDesc

/-- `UpdateItem.__call__`: default unset overrides to the current
section/key, remap the value through the lookup table (values absent
from the table unchanged). -/
def updateCall (sec key : Option Str) (values : Option (List (Str × Str)))
    (curSection curKey curValue : Str) : Str × Str × Str :=
  (sec.getD curSection, key.getD curKey,
   match values with
   | none => curValue
   | some m => (assocGet m curValue).getD curValue)

/-- Stable insertion into a version-sorted list (Python `sorted` with
`key=lambda t: t[0]` is stable; an element is inserted before the first
strictly larger one, after equal ones is impossible since insertion
from the right preserves original order of equals). -/
def sortedInsert (t : MigrationType) : List MigrationType → List MigrationType
  | [] => [t]
  | u :: rest => if vle t.1 u.1 then t :: u :: rest else u :: sortedInsert t rest

/-- `sorted(migration_defs, key=lambda t: t[0])`. -/
def sortDefs : List MigrationType → List MigrationType
  | [] => []
  | t :: rest => sortedInsert t (sortDefs rest)

/-- `migration_filter`: sort ascending, skip while
`previous_version >= t[0]` (i.e. `t[0] <= previous_version`), return the
remaining suffix. -/
def migration_filter (migration_defs : List MigrationType)
    (previous_version : RedemptionVersion) : List MigrationType :=
  (sortDefs migration_defs).dropWhile (fun t => vle t.1 previous_version)

/-- State of the single scan in `migration_def_to_actions`. -/
structure ActionState : Type where
  sect : Str
  original_section : Str
  migration_key_desc : Option (List (Str × MigKeyOrder))
  renamed_sections : List (Str × Str)
  renamed_keys : List (Str × Str × Str × Str)
  moved_keys : List (Str × Str × Str × Str × Str)
  removed_sections : List Str
  removed_keys : List (Str × Str)
deriving DecidableEq

def initActionState : ActionState := ⟨[], [], none, [], [], [], [], []⟩

/-- The iterable branch `for order in order` of the Section case. -/
def stepsFold (st : ActionState) (l : List MigStep) : ActionState :=
  l.foldl (fun st o =>
    match o with
    | MigStep.move name =>
      { st with renamed_sections := st.renamed_sections ++ [(st.sect, name)], sect := name }
    | MigStep.keys d => { st with migration_key_desc := some d }) st

/-- The body of the `for fragment in fragments` loop of
`migration_def_to_actions`. -/
def actionsStep (migration_def : MigrationDesc) (st : ActionState)
    (fragment : ConfigurationFragment) : ActionState :=
  if fragment.kind = ConfigKind.KeyValue then
    match st.migration_key_desc with
    | none => st
    | some d =>
      if d = [] then st
      else
        match assocGet d fragment.value1 with
        | none => st
        | some MigKeyOrder.remove =>
          { st with removed_keys := st.removed_keys ++ [(st.sect, fragment.value1)] }
        | some (MigKeyOrder.update os ok ov) =>
          let t := updateCall os ok ov st.sect fragment.value1 fragment.value2
          if t.1 = st.sect then
            { st with renamed_keys :=
                st.renamed_keys ++ [(st.original_section, fragment.value1, t.2.1, t.2.2)] }
          else
            { st with moved_keys :=
                st.moved_keys ++ [(st.original_section, fragment.value1, t.1, t.2.1, t.2.2)] }
  else if fragment.kind = ConfigKind.Section then
    let st1 := { st with migration_key_desc := none,
                         sect := fragment.value1, original_section := fragment.value1 }
    match assocGet migration_def fragment.value1 with
    | none => st1
    | some MigSectionOrder.remove =>
      { st1 with removed_sections := st1.removed_sections ++ [st1.sect] }
    | some (MigSectionOrder.moveSection name) =>
      { st1 with renamed_sections := st1.renamed_sections ++ [(st1.sect, name)] }
    | some (MigSectionOrder.keys d) => { st1 with migration_key_desc := some d }
    | some (MigSectionOrder.steps l) => stepsFold st1 l
  else st

/-- `migration_def_to_actions`: the five action lists. -/
def migration_def_to_actions (fragments : List ConfigurationFragment)
    (migration_def : MigrationDesc) :
    List (Str × Str) × List (Str × Str × Str × Str) × List (Str × Str × Str × Str × Str)
      × List Str × List (Str × Str) :=
  let st := fragments.foldl (actionsStep migration_def) initActionState
  (st.renamed_sections, st.renamed_keys, st.moved_keys, st.removed_sections, st.removed_keys)

/-- `setdefault(section, []).append(span)` on the span dictionary
(insertion order preserved, as for a Python dict). -/
def addSpan (m : List (Str × List (Nat × Nat))) (name : Str) (sp : Nat × Nat) :
    List (Str × List (Nat × Nat)) :=
  match m with
  | [] => [(name, [sp])]
  | (k, v) :: rest => if k = name then (k, v ++ [sp]) :: rest else (k, v) :: addSpan rest name sp

/-- Loop state of `fragments_to_spans_of_sections`: `start`, `section`,
the span dictionary, and the running index. -/
structure SpanAcc : Type where
  start : Nat
  sect : Str
  spans : List (Str × List (Nat × Nat))
  i : Nat
deriving DecidableEq

/-- Loop body of `fragments_to_spans_of_sections`.  Note the source
records a span as `(start, i-1)` guarded by `start < i-1`; in Python
`i-1` may be `-1`, in which case the guard is false, matching truncated
subtraction here. -/
def spanStep (acc : SpanAcc) (fragment : ConfigurationFragment) : SpanAcc :=
  if fragment.kind = ConfigKind.Section then
    { start := acc.i
      sect := fragment.value1
      spans := if acc.start < acc.i - 1 then addSpan acc.spans acc.sect (acc.start, acc.i - 1)
               else acc.spans
      i := acc.i + 1 }
  else { acc with i := acc.i + 1 }

/-- `fragments_to_spans_of_sections`.  After the loop the Python variable
`i` holds the index of the last fragment (`0` when the list is empty),
and the final flush again records `(start, i-1)` under `start < i-1`. -/
def fragments_to_spans_of_sections (fragments : List ConfigurationFragment) :
    List (Str × List (Nat × Nat)) :=
  let acc := fragments.foldl spanStep ⟨0, [], [], 0⟩
  let ilast := if fragments.length = 0 then 0 else fragments.length - 1
  if acc.start < ilast - 1 then addSpan acc.spans acc.sect (acc.start, ilast - 1) else acc.spans

/-- `section_spans.get(section_name, ())`. -/
def spansGet (m : List (Str × List (Nat × Nat))) (name : Str) : List (Nat × Nat) :=
  (assocGet m name).getD []

/-- `iter_from_spans`: all indices `i` with `span[0] <= i < span[1]`,
span by span. -/
def iter_from_spans (spans : List (Nat × Nat)) : List Nat :=
  (spans.map (fun sp => List.range' sp.1 (sp.2 - sp.1))).foldr (· ++ ·) []

/-- `iter_key_fragment`: the KeyValue fragments with the given key inside
the spans of the given section, with their indices. -/
def iter_key_fragment (fragments : List ConfigurationFragment)
    (spans : List (Str × List (Nat × Nat))) (section_name : Str) (key_name : Str) :
    List (Nat × ConfigurationFragment) :=
  (iter_from_spans (spansGet spans section_name)).filterMap (fun i =>
    match fragments.get? i with
    | some fragment =>
      if fragment.kind = ConfigKind.KeyValue ∧ key_name = fragment.value1 then
        some (i, fragment)
      else none
    | none => none)

/-- `ConfigurationFragment(f'#{fragment.text}', ConfigKind.Comment)`. -/
def comment_out (fragment : ConfigurationFragment) : ConfigurationFragment :=
  ⟨'#' :: fragment.text, ConfigKind.Comment, [], []⟩

/-- A fresh `key=value` KeyValue fragment. -/
def mkKeyValue (key value : Str) : ConfigurationFragment :=
  ⟨key ++ '=' :: value, ConfigKind.KeyValue, key, value⟩

/-- A fresh `[name]` Section fragment. -/
def mkSection (name : Str) : ConfigurationFragment :=
  ⟨'[' :: name ++ [']'], ConfigKind.Section, name, []⟩

/-- Registrations of the renamed-keys loop of `migrate`. -/
def renameKeyRegs (fragments : List ConfigurationFragment)
    (spans : List (Str × List (Nat × Nat))) (rk : List (Str × Str × Str × Str)) :
    List (Nat × List ConfigurationFragment) :=
  (rk.map (fun e =>
    (iter_key_fragment fragments spans e.1 e.2.1).map (fun p =>
      (p.1, [comment_out p.2, newline_fragment, mkKeyValue e.2.2.1 e.2.2.2])))).foldr (· ++ ·) []

/-- The registrations generated for one removed section: a single
comment replacement at every Section or KeyValue fragment inside the
section`s spans. -/
def covChunk (fragments : List ConfigurationFragment)
    (spans : List (Str × List (Nat × Nat))) (sect : Str) :
    List (Nat × List ConfigurationFragment) :=
  (iter_from_spans (spansGet spans sect)).filterMap (fun i =>
    match fragments.get? i with
    | some fragment =>
      if fragment.kind = ConfigKind.KeyValue ∨ fragment.kind = ConfigKind.Section then
        some (i, [comment_out fragment])
      else none
    | none => none)

/-- Registrations of the removed-sections loop of `migrate`. -/
def removeSectionRegs (fragments : List ConfigurationFragment)
    (spans : List (Str × List (Nat × Nat))) (rems : List Str) :
    List (Nat × List ConfigurationFragment) :=
  (rems.map (covChunk fragments spans)).foldr (· ++ ·) []

/-- Registrations of the chained removed-keys and moved-keys loop of
`migrate` (the loop reads only the section and key of each action). -/
def removeMoveKeyRegs (fragments : List ConfigurationFragment)
    (spans : List (Str × List (Nat × Nat))) (pairs : List (Str × Str)) :
    List (Nat × List ConfigurationFragment) :=
  (pairs.map (fun t =>
    (iter_key_fragment fragments spans t.1 t.2).map (fun p =>
      (p.1, [comment_out p.2])))).foldr (· ++ ·) []

/-- Registrations of the renamed-sections loop of `migrate`. -/
def renameSectionRegs (fragments : List ConfigurationFragment)
    (spans : List (Str × List (Nat × Nat))) (rs : List (Str × Str)) :
    List (Nat × List ConfigurationFragment) :=
  (rs.map (fun e =>
    (spansGet spans e.1).map (fun sp =>
      (sp.1, (match fragments.get? sp.1 with
              | some fragment => [comment_out fragment, newline_fragment, mkSection e.2]
              | none => []))))).foldr (· ++ ·) []

/-- The sequence of assignments to `reinject_fragments` performed by
`migrate`, in program order: the renamed-keys loop, the removed-sections
loop, the chained removed-keys and moved-keys loop, and the
renamed-sections loop.  (The source indexes `fragments[i]` with `i`
always in bounds; out-of-bounds indices yield no assignment here.) -/
def migrate_registrations (fragments : List ConfigurationFragment)
    (migration_def : MigrationDesc) : List (Nat × List ConfigurationFragment) :=
  let acts := migration_def_to_actions fragments migration_def
  let spans := fragments_to_spans_of_sections fragments
  renameKeyRegs fragments spans acts.2.1
  ++ removeSectionRegs fragments spans acts.2.2.2.1
  ++ removeMoveKeyRegs fragments spans
       (acts.2.2.2.2 ++ acts.2.2.1.map (fun t => (t.1, t.2.1)))
  ++ renameSectionRegs fragments spans acts.1

/-- `reinject_fragments.get(i)`: dictionary lookup where the last
assignment to an index wins. -/
def reinjectGet (regs : List (Nat × List ConfigurationFragment)) (i : Nat) :
    Option (List ConfigurationFragment) :=
  regs.foldl (fun acc e => if e.1 = i then some e.2 else acc) none

/-- The `added_keys` dictionary built from the moved-keys actions: per
destination section a queued (newline, key=value, newline) trio per
matched source fragment. -/
def addedKeys0 (fragments : List ConfigurationFragment)
    (spans : List (Str × List (Nat × Nat)))
    (moved_keys : List (Str × Str × Str × Str × Str)) :
    List (Str × List ConfigurationFragment) :=
  moved_keys.foldl (fun m e =>
    (iter_key_fragment fragments spans e.1 e.2.1).foldl (fun m _ =>
      match m.lookup e.2.2.1 with
      | some _ => m.map (fun p => if p.1 = e.2.2.1 then
          (p.1, p.2 ++ [newline_fragment, mkKeyValue e.2.2.2.1 e.2.2.2.2, newline_fragment])
          else p)
      | none => m ++ [(e.2.2.1, [newline_fragment, mkKeyValue e.2.2.2.1 e.2.2.2.2, newline_fragment])]) m) []

/-- `added_keys[section] = []` (the queue is cleared in place). -/
def clearAdded (m : List (Str × List ConfigurationFragment)) (name : Str) :
    List (Str × List ConfigurationFragment) :=
  m.map (fun p => if p.1 = name then (p.1, []) else p)

/-- Python `enumerate`. -/
def enumF {α : Type} : Nat → List α → List (Nat × α)
  | _, [] => []
  | n, x :: xs => (n, x) :: enumF (n + 1) xs

/-- Body of the rebuilding pass of `migrate`: emit the registered
replacement (or the fragment itself); if the emitted fragments contain a
Section fragment (first one wins), flush that section`s queued keys. -/
def rebuildStep (regs : List (Nat × List ConfigurationFragment))
    (acc : List ConfigurationFragment × List (Str × List ConfigurationFragment))
    (p : Nat × ConfigurationFragment) :
    List ConfigurationFragment × List (Str × List ConfigurationFragment) :=
  let added_fragments := (reinjectGet regs p.1).getD [p.2]
  let res := acc.1 ++ added_fragments
  match added_fragments.find? (fun x => x.kind == ConfigKind.Section) with
  | none => (res, acc.2)
  | some x =>
    if x.value1 = [] then (res, acc.2)
    else
      match assocGet acc.2 x.value1 with
      | none => (res, acc.2)
      | some keys =>
        if keys = [] then (res, acc.2)
        else (res ++ keys, clearAdded acc.2 x.value1)

/-- `migrate`: returns the changed flag and the new fragment sequence. -/
def migrate (fragments : List ConfigurationFragment) (migration_def : MigrationDesc) :
    Bool × List ConfigurationFragment :=
  let acts := migration_def_to_actions fragments migration_def
  if acts.1 = [] ∧ acts.2.1 = [] ∧ acts.2.2.1 = [] ∧ acts.2.2.2.1 = [] ∧ acts.2.2.2.2 = []
  then (false, fragments)
  else
    let spans := fragments_to_spans_of_sections fragments
    let regs := migrate_registrations fragments migration_def
    let a0 := addedKeys0 fragments spans acts.2.2.1
    let pass := (enumF 0 fragments).foldl (rebuildStep regs) ([], a0)
    (true, pass.2.foldl (fun r p =>
      if p.2 = [] then r else r ++ [newline_fragment, mkSection p.1] ++ p.2) pass.1)

/-- The `migration_defs` catalog (versions 9.1.39, 9.1.71, 9.1.76). -/
def migration_defs : List MigrationType :=
  [ (⟨9, 1, 39, []⟩, [
      (str "globals", MigSectionOrder.keys [
        (str "session_timeout",
         MigKeyOrder.update none (some (str "base_inactivity_timeout")) none)])]),
    (⟨9, 1, 71, []⟩, [
      (str "rdp", MigSectionOrder.keys (
        ((([str "session_probe_exe_or_file",
            str "session_probe_arguments",
            str "session_probe_customize_executable_name",
            str "session_probe_allow_multiple_handshake",
            str "session_probe_at_end_of_session_freeze_connection_and_wait",
            str "session_probe_enable_cleaner",
            str "session_probe_clipboard_based_launcher_reset_keyboard_status"].map
          (fun key => (key,
            MigKeyOrder.update (some (str "session_probe")) (some (key.drop 14)) none)))
        ++ [(str "session_probe_bestsafe_integration",
             MigKeyOrder.update (some (str "session_probe"))
               (some (str "enable_bestsafe_interaction")) none)])))),
      (str "video", MigSectionOrder.keys [
        (str "replay_path", MigKeyOrder.update (some (str "mod_replay")) none none)])]),
    (⟨9, 1, 76, []⟩, [
      (str "all_target_mod", MigSectionOrder.keys [
        (str "connection_retry_count", MigKeyOrder.remove)])]) ]

/-!
Helper lemmas about `stepsFold`.
-/

/-- The value remap of `UpdateItem`: `values.get(value, value)` when a
lookup table is present, the current value otherwise. -/
def remapValue (values : Option (List (Str × Str))) (curValue : Str) : Str :=
  match values with
  | none => curValue
  | some m => (assocGet m curValue).getD curValue

theorem stepsFold_original_section (l : List MigStep) :
    ∀ st : ActionState, (stepsFold st l).original_section = st.original_section := by
  induction l with
  | nil => intro st; rfl
  | cons o rest ih =>
    intro st
    cases o with
    | move name => simp [stepsFold, List.foldl_cons] at ih ⊢; exact ih _
    | keys d => simp [stepsFold, List.foldl_cons] at ih ⊢; exact ih _

/-- C9.  Version comparison semantics: the parsed versions of "9.1.39",
"9.1.71" and "9.1.76" are strictly increasing; a parsed "9.1.39" is the
same value as an independently re-parsed "9.1.39" and compares equal to
it under the ordering the class defines (less-or-equal both ways,
strictly-less neither way); parsing the malformed "9.1" yields no
version (the `RedemptionVersionError` branch). -/
theorem version_comparison_semantics :
    parseVersion (str "9.1.39") = some ⟨9, 1, 39, []⟩ ∧
    parseVersion (str "9.1.71") = some ⟨9, 1, 71, []⟩ ∧
    parseVersion (str "9.1.76") = some ⟨9, 1, 76, []⟩ ∧
    vlt ⟨9, 1, 39, []⟩ ⟨9, 1, 71, []⟩ = true ∧
    vlt ⟨9, 1, 71, []⟩ ⟨9, 1, 76, []⟩ = true ∧
    vle ⟨9, 1, 39, []⟩ ⟨9, 1, 39, []⟩ = true ∧
    vlt ⟨9, 1, 39, []⟩ ⟨9, 1, 39, []⟩ = false ∧
    parseVersion (str "9.1") = none := by
  decide

/-- C8.  The changed flag: `migrate` returns `true` exactly when one of
the five action lists derived from the description is non-empty, and
when it returns `false` the fragment sequence is returned unchanged. -/
theorem migrate_changed_flag (fragments : List ConfigurationFragment)
    (migration_def : MigrationDesc) :
    ((migrate fragments migration_def).1 = true ↔
      ¬((migration_def_to_actions fragments migration_def).1 = [] ∧
        (migration_def_to_actions fragments migration_def).2.1 = [] ∧
        (migration_def_to_actions fragments migration_def).2.2.1 = [] ∧
        (migration_def_to_actions fragments migration_def).2.2.2.1 = [] ∧
        (migration_def_to_actions fragments migration_def).2.2.2.2 = [])) ∧
    ((migrate fragments migration_def).1 = false →
      (migrate fragments migration_def).2 = fragments) := by
  by_cases h : (migration_def_to_actions fragments migration_def).1 = [] ∧
      (migration_def_to_actions fragments migration_def).2.1 = [] ∧
      (migration_def_to_actions fragments migration_def).2.2.1 = [] ∧
      (migration_def_to_actions fragments migration_def).2.2.2.1 = [] ∧
      (migration_def_to_actions fragments migration_def).2.2.2.2 = [] <;>
    simp [migrate, h]

/-- Witness for C8: on the empty configuration with the empty
description nothing changes and the sequence is returned as is. -/
theorem migrate_changed_flag_witness : (migrate [] []).2 = [] := by
  exact (migrate_changed_flag [] []).2 (by decide)

/-- The four-fragment parse of a minimal file whose last line is the
key-value to be migrated. -/
def fragsRdpMin : List ConfigurationFragment :=
  parse_configuration (str "[rdp]\nsession_probe_exe_or_file=foo.exe\n")

/-- The migration description moving `session_probe_exe_or_file` from
`rdp` to section `session_probe` under key `exe_or_file`. -/
def mdefMoveProbe : MigrationDesc :=
  [(str "rdp", MigSectionOrder.keys
    [(str "session_probe_exe_or_file",
      MigKeyOrder.update (some (str "session_probe")) (some (str "exe_or_file")) none)])]

/-- C2.  Evidence of the span off-by-one: for the fragment sequence of
`"[rdp]\nsession_probe_exe_or_file=foo.exe\n"` (Section, NewLine,
KeyValue, NewLine), the computed span of `rdp` is `[0, 2)` — the code
records `(start, i-1)` where `i` is the index of the *last* fragment —
so the KeyValue fragment at index 2, which lies between the header and
the end of the sequence, is outside every span, where the claim requires
the span to extend to the end of the sequence (index 4). -/
theorem span_end_off_by_one :
    fragments_to_spans_of_sections fragsRdpMin = [(str "rdp", [(0, 2)])] ∧
    fragsRdpMin.length = 4 ∧
    (fragsRdpMin.get? 2).map (fun f => f.kind) = some ConfigKind.KeyValue ∧
    ¬ 2 ∈ iter_from_spans (spansGet (fragments_to_spans_of_sections fragsRdpMin) (str "rdp")) := by
  decide

/-- C4.  Evidence of the move-key failure caused by the span off-by-one:
on the same minimal sequence the move rule does match (the moved-keys
action list is non-empty), yet `migrate` returns the sequence unchanged:
the original key line is not commented out and no `[session_probe]`
section is appended, because the key-value fragment at index 2 lies
outside the computed span of `rdp`. -/
theorem move_key_uncovered_no_op :
    (migration_def_to_actions fragsRdpMin mdefMoveProbe).2.2.1 ≠ [] ∧
    migrate fragsRdpMin mdefMoveProbe = (true, fragsRdpMin) := by
  decide

/-- C3.  Update-rule classification: at a KeyValue fragment whose key is
mapped to an update rule by the active key-rule mapping, the resulting
triple defaults each unset override to the current section/key/value and
remaps the value through the lookup table (values absent unchanged); a
rename-key action is recorded when the resulting section equals the
current section and a move-key action otherwise, in both cases recording
`original_section`; and processing any Section fragment always sets
`original_section` to the section name as physically written. -/
theorem update_rule_classification (migration_def : MigrationDesc) (st : ActionState)
    (fragment : ConfigurationFragment) (d : List (Str × MigKeyOrder))
    (os ok : Option Str) (ov : Option (List (Str × Str)))
    (hk : fragment.kind = ConfigKind.KeyValue)
    (hd : st.migration_key_desc = some d) (hne : d ≠ [])
    (ho : assocGet d fragment.value1 = some (MigKeyOrder.update os ok ov)) :
    (updateCall os ok ov st.sect fragment.value1 fragment.value2 =
      (os.getD st.sect, ok.getD fragment.value1, remapValue ov fragment.value2)) ∧
    (actionsStep migration_def st fragment =
      if (updateCall os ok ov st.sect fragment.value1 fragment.value2).1 = st.sect then
        { st with renamed_keys := st.renamed_keys ++
            [(st.original_section, fragment.value1,
              (updateCall os ok ov st.sect fragment.value1 fragment.value2).2.1,
              (updateCall os ok ov st.sect fragment.value1 fragment.value2).2.2)] }
      else
        { st with moved_keys := st.moved_keys ++
            [(st.original_section, fragment.value1,
              updateCall os ok ov st.sect fragment.value1 fragment.value2)] }) ∧
    (∀ (st2 : ActionState) (g : ConfigurationFragment), g.kind = ConfigKind.Section →
      (actionsStep migration_def st2 g).original_section = g.value1) := by
  refine ⟨rfl, ?_, ?_⟩
  · have hk2 : fragment.kind = ConfigKind.KeyValue := hk
    simp [actionsStep, hk2, hd, hne, ho]
  · intro st2 g hg
    have hne2 : ¬ g.kind = ConfigKind.KeyValue := by rw [hg]; intro h; cases h
    unfold actionsStep
    rw [if_neg hne2, if_pos hg]
    cases ho2 : assocGet migration_def g.value1 with
    | none => rfl
    | some o =>
      cases o with
      | remove => rfl
      | moveSection name => rfl
      | keys d2 => rfl
      | steps l => exact stepsFold_original_section l _

/-- Witness for C3: a concrete state in section `a` with an active
mapping renaming key `k` to `k2`; the step records a rename-key action
crediting section `a`. -/
theorem update_rule_classification_witness :
    actionsStep []
      ⟨str "a", str "a", some [(str "k", MigKeyOrder.update none (some (str "k2")) none)],
        [], [], [], [], []⟩
      (mkKeyValue (str "k") (str "v"))
      = ⟨str "a", str "a", some [(str "k", MigKeyOrder.update none (some (str "k2")) none)],
        [], [(str "a", str "k", str "k2", str "v")], [], [], []⟩ := by
  have h := (update_rule_classification []
    ⟨str "a", str "a", some [(str "k", MigKeyOrder.update none (some (str "k2")) none)],
      [], [], [], [], []⟩
    (mkKeyValue (str "k") (str "v"))
    [(str "k", MigKeyOrder.update none (some (str "k2")) none)]
    none (some (str "k2")) none rfl rfl (by decide) (by decide)).2.1
  rw [h]; decide

/-!
Order-theoretic facts about the version comparison, used by the
version-gate theorem.
-/

theorem strLt_irrefl : ∀ a : Str, strLt a a = false := by
  intro a
  induction a with
  | nil => rfl
  | cons c cs ih => simp [strLt, ih]

theorem strLt_cons_iff (x y : Char) (xs ys : Str) :
    strLt (x :: xs) (y :: ys) = true ↔
      (x.toNat < y.toNat ∨ (x.toNat = y.toNat ∧ strLt xs ys = true)) := by
  simp only [strLt]
  split_ifs with h1 h2
  · simp [h1]
  · simp only [Bool.false_eq_true, false_iff]
    intro h
    rcases h with h | ⟨h, _⟩ <;> omega
  · have hxy : x.toNat = y.toNat := by omega
    simp [hxy, h1]

theorem strLt_trans : ∀ a b c : Str, strLt a b = true → strLt b c = true → strLt a c = true := by
  intro a
  induction a with
  | nil =>
    intro b c hab hbc
    cases b with
    | nil => simp [strLt] at hab
    | cons y ys =>
      cases c with
      | nil => simp [strLt] at hbc
      | cons z zs => simp [strLt]
  | cons x xs ih =>
    intro b c hab hbc
    cases b with
    | nil => simp [strLt] at hab
    | cons y ys =>
      cases c with
      | nil => simp [strLt] at hbc
      | cons z zs =>
        rw [strLt_cons_iff] at hab hbc ⊢
        rcases hab with h | ⟨he, h⟩
        · rcases hbc with h2 | ⟨he2, _⟩
          · exact Or.inl (by omega)
          · exact Or.inl (by omega)
        · rcases hbc with h2 | ⟨he2, h2⟩
          · exact Or.inl (by omega)
          · exact Or.inr ⟨by omega, ih ys zs h h2⟩

theorem strLt_connex : ∀ a b : Str, strLt a b = false → strLt b a = false → a = b := by
  intro a
  induction a with
  | nil =>
    intro b hab _
    cases b with
    | nil => rfl
    | cons y ys => simp [strLt] at hab
  | cons x xs ih =>
    intro b hab hba
    cases b with
    | nil => simp [strLt] at hba
    | cons y ys =>
      have hab2 : ¬ strLt (x :: xs) (y :: ys) = true := by simp [hab]
      have hba2 : ¬ strLt (y :: ys) (x :: xs) = true := by simp [hba]
      rw [strLt_cons_iff] at hab2 hba2
      push_neg at hab2 hba2
      have hxy : x.toNat = y.toNat := by omega
      have hx : x = y := Char.ext (UInt32.toNat.inj hxy)
      have hxs : strLt xs ys = false := by
        cases h : strLt xs ys
        · rfl
        · exact absurd h (hab2.2 hxy)
      have hys : strLt ys xs = false := by
        cases h : strLt ys xs
        · rfl
        · exact absurd h (hba2.2 hxy.symm)
      rw [hx, ih ys hxs hys]

theorem vlt_iff (a b : RedemptionVersion) :
    vlt a b = true ↔
      (a.major < b.major ∨ (a.major = b.major ∧
        (a.minor < b.minor ∨ (a.minor = b.minor ∧
          (a.build < b.build ∨ (a.build = b.build ∧
            strLt a.revision b.revision = true)))))) := by
  unfold vlt
  split_ifs with h1 h2 h3 h4 h5 h6
  · exact ⟨fun _ => Or.inl h1, fun _ => rfl⟩
  · refine ⟨fun h => absurd h (by simp), fun h => absurd h ?_⟩
    intro hc
    rcases hc with h | ⟨he, _⟩ <;> omega
  · have he : a.major = b.major := by omega
    exact ⟨fun _ => Or.inr ⟨he, Or.inl h3⟩, fun _ => rfl⟩
  · refine ⟨fun h => absurd h (by simp), fun h => absurd h ?_⟩
    intro hc
    rcases hc with h | ⟨he, hc⟩
    · omega
    · rcases hc with h | ⟨he2, _⟩ <;> omega
  · have he : a.major = b.major := by omega
    have he2 : a.minor = b.minor := by omega
    exact ⟨fun _ => Or.inr ⟨he, Or.inr ⟨he2, Or.inl h5⟩⟩, fun _ => rfl⟩
  · refine ⟨fun h => absurd h (by simp), fun h => absurd h ?_⟩
    intro hc
    rcases hc with h | ⟨he, hc⟩
    · omega
    · rcases hc with h | ⟨he2, hc⟩
      · omega
      · rcases hc with h | ⟨he3, _⟩ <;> omega
  · have he : a.major = b.major := by omega
    have he2 : a.minor = b.minor := by omega
    have he3 : a.build = b.build := by omega
    constructor
    · intro h
      exact Or.inr ⟨he, Or.inr ⟨he2, Or.inr ⟨he3, h⟩⟩⟩
    · intro h
      rcases h with h | ⟨_, h⟩
      · omega
      · rcases h with h | ⟨_, h⟩
        · omega
        · rcases h with h | ⟨_, h⟩
          · omega
          · exact h

theorem vlt_irrefl (a : RedemptionVersion) : vlt a a = false := by
  cases h : vlt a a
  · rfl
  · exfalso
    rw [vlt_iff] at h
    rcases h with h | ⟨_, h⟩
    · omega
    · rcases h with h | ⟨_, h⟩
      · omega
      · rcases h with h | ⟨_, h⟩
        · omega
        · exact absurd h (by simp [strLt_irrefl])

theorem vlt_trans (a b c : RedemptionVersion) (hab : vlt a b = true) (hbc : vlt b c = true) :
    vlt a c = true := by
  rw [vlt_iff] at hab hbc ⊢
  rcases hab with h | ⟨he1, h⟩
  · rcases hbc with h2 | ⟨he2, h2⟩
    · exact Or.inl (Nat.lt_trans h h2)
    · exact Or.inl (he2 ▸ h)
  · rcases hbc with h2 | ⟨he2, h2⟩
    · exact Or.inl (he1 ▸ h2)
    · refine Or.inr ⟨he1.trans he2, ?_⟩
      rcases h with h | ⟨hf1, h⟩
      · rcases h2 with h2 | ⟨hf2, h2⟩
        · exact Or.inl (Nat.lt_trans h h2)
        · exact Or.inl (hf2 ▸ h)
      · rcases h2 with h2 | ⟨hf2, h2⟩
        · exact Or.inl (hf1 ▸ h2)
        · refine Or.inr ⟨hf1.trans hf2, ?_⟩
          rcases h with h | ⟨hg1, h⟩
          · rcases h2 with h2 | ⟨hg2, h2⟩
            · exact Or.inl (Nat.lt_trans h h2)
            · exact Or.inl (hg2 ▸ h)
          · rcases h2 with h2 | ⟨hg2, h2⟩
            · exact Or.inl (hg1 ▸ h2)
            · exact Or.inr ⟨hg1.trans hg2, strLt_trans _ _ _ h h2⟩

theorem vlt_connex (a b : RedemptionVersion) (hab : vlt a b = false) (hba : vlt b a = false) :
    a = b := by
  cases a with
  | mk a1 a2 a3 a4 =>
    cases b with
    | mk b1 b2 b3 b4 =>
      have h1 : ¬ vlt ⟨a1, a2, a3, a4⟩ ⟨b1, b2, b3, b4⟩ = true := by simp [hab]
      have h2 : ¬ vlt ⟨b1, b2, b3, b4⟩ ⟨a1, a2, a3, a4⟩ = true := by simp [hba]
      rw [vlt_iff] at h1 h2
      simp only [not_or, not_and, not_lt] at h1 h2
      have e1 : a1 = b1 := by omega
      subst e1
      have e2 : a2 = b2 := by
        have := h1.2 rfl
        have := h2.2 rfl
        omega
      subst e2
      have e3 : a3 = b3 := by
        have := (h1.2 rfl).2 rfl
        have := (h2.2 rfl).2 rfl
        omega
      subst e3
      have c1 : strLt a4 b4 = false := by
        have := ((h1.2 rfl).2 rfl).2 rfl
        simp at this
        exact this
      have c2 : strLt b4 a4 = false := by
        have := ((h2.2 rfl).2 rfl).2 rfl
        simp at this
        exact this
      rw [strLt_connex a4 b4 c1 c2]

theorem vle_iff (a b : RedemptionVersion) : vle a b = true ↔ vlt a b = true ∨ a = b := by
  simp [vle]

theorem vle_refl (a : RedemptionVersion) : vle a a = true := by simp [vle]

theorem vle_trans (a b c : RedemptionVersion) (hab : vle a b = true) (hbc : vle b c = true) :
    vle a c = true := by
  rw [vle_iff] at hab hbc ⊢
  rcases hab with h | rfl
  · rcases hbc with h2 | rfl
    · exact Or.inl (vlt_trans _ _ _ h h2)
    · exact Or.inl h
  · exact hbc

theorem vle_total (a b : RedemptionVersion) : vle a b = true ∨ vle b a = true := by
  cases h1 : vlt a b
  · cases h2 : vlt b a
    · exact Or.inl (by rw [vle_iff]; exact Or.inr (vlt_connex a b h1 h2))
    · exact Or.inr (by rw [vle_iff]; exact Or.inl h2)
  · exact Or.inl (by rw [vle_iff]; exact Or.inl h1)

theorem vle_false_iff (a b : RedemptionVersion) : vle a b = false ↔ vlt b a = true := by
  constructor
  · intro h
    cases h2 : vlt b a
    · exfalso
      cases h1 : vlt a b
      · have := vlt_connex a b h1 h2
        subst this
        rw [vle_refl] at h
        cases h
      · have : vle a b = true := by rw [vle_iff]; exact Or.inl h1
        rw [this] at h
        cases h
    · rfl
  · intro h
    cases hv : vle a b
    · rfl
    · exfalso
      rw [vle_iff] at hv
      rcases hv with h1 | rfl
      · have := vlt_trans _ _ _ h1 h
        rw [vlt_irrefl] at this
        cases this
      · rw [vlt_irrefl] at h
        cases h

theorem sortedInsert_perm (t : MigrationType) (l : List MigrationType) :
    (sortedInsert t l).Perm (t :: l) := by
  induction l with
  | nil => exact List.Perm.refl _
  | cons u rest ih =>
    by_cases hc : vle t.1 u.1 = true
    · simp [sortedInsert, hc]
    · simp only [sortedInsert, hc, if_false]
      exact (ih.cons u).trans (List.Perm.swap t u rest)

theorem sortDefs_perm (l : List MigrationType) : (sortDefs l).Perm l := by
  induction l with
  | nil => exact List.Perm.refl _
  | cons t rest ih =>
    exact (sortedInsert_perm t (sortDefs rest)).trans (ih.cons t)

theorem sortedInsert_sorted (t : MigrationType) (l : List MigrationType)
    (h : List.Pairwise (fun a b : MigrationType => vle a.1 b.1 = true) l) :
    List.Pairwise (fun a b : MigrationType => vle a.1 b.1 = true) (sortedInsert t l) := by
  induction l with
  | nil => simp [sortedInsert]
  | cons u rest ih =>
    rcases List.pairwise_cons.mp h with ⟨hu, hrest⟩
    by_cases hc : vle t.1 u.1 = true
    · simp only [sortedInsert, hc, if_true]
      refine List.pairwise_cons.mpr ⟨?_, h⟩
      intro x hx
      rcases List.mem_cons.mp hx with rfl | hx2
      · exact hc
      · exact vle_trans _ _ _ hc (hu x hx2)
    · simp only [sortedInsert, hc, if_false]
      have hut : vle u.1 t.1 = true := by
        rcases vle_total t.1 u.1 with h1 | h1
        · exact absurd h1 hc
        · exact h1
      refine List.pairwise_cons.mpr ⟨?_, ih hrest⟩
      intro x hx
      rcases List.mem_cons.mp ((sortedInsert_perm t rest).mem_iff.mp hx) with rfl | h2
      · exact hut
      · exact hu x h2

theorem sortDefs_sorted (l : List MigrationType) :
    List.Pairwise (fun a b : MigrationType => vle a.1 b.1 = true) (sortDefs l) := by
  induction l with
  | nil => exact List.Pairwise.nil
  | cons t rest ih => exact sortedInsert_sorted t (sortDefs rest) ih

theorem dropWhile_sorted_eq_filter (prev : RedemptionVersion) :
    ∀ l : List MigrationType,
      List.Pairwise (fun a b : MigrationType => vle a.1 b.1 = true) l →
      l.dropWhile (fun t => vle t.1 prev) = l.filter (fun t => !(vle t.1 prev)) := by
  intro l h
  induction l with
  | nil => rfl
  | cons u rest ih =>
    rcases List.pairwise_cons.mp h with ⟨hu, hrest⟩
    by_cases hc : vle u.1 prev = true
    · simp only [List.dropWhile_cons, List.filter_cons, hc, Bool.not_true, if_true]
      exact ih hrest
    · have hc2 : vle u.1 prev = false := by
        cases h2 : vle u.1 prev
        · rfl
        · exact absurd h2 hc
      have hfr : List.filter (fun t => !(vle t.1 prev)) rest = rest := by
        refine List.filter_eq_self.mpr ?_
        intro x hx
        have hux : vle u.1 x.1 = true := hu x hx
        cases h3 : vle x.1 prev
        · simp
        · exact absurd (vle_trans _ _ _ hux h3) hc
      simp [List.dropWhile_cons, List.filter_cons, hc2, hfr]

/-- C7.  The version gate: `migration_filter` returns exactly the
catalog entries whose version is strictly greater than the previous
version (as a permutation-free selection: the result is a permutation of
the filtered catalog), in ascending version order, and is empty whenever
every cataloged version is less than or equal to the previous one. -/
theorem migration_filter_gate (defs : List MigrationType) (prev : RedemptionVersion) :
    (migration_filter defs prev).Perm (defs.filter (fun t => vlt prev t.1)) ∧
    List.Pairwise (fun a b : MigrationType => vle a.1 b.1 = true) (migration_filter defs prev) ∧
    ((∀ t ∈ defs, vle t.1 prev = true) → migration_filter defs prev = []) := by
  have hs := sortDefs_sorted defs
  have hperm := sortDefs_perm defs
  refine ⟨?_, ?_, ?_⟩
  · rw [migration_filter, dropWhile_sorted_eq_filter prev _ hs]
    have hcong : ∀ t ∈ sortDefs defs, (!(vle t.1 prev)) = (vlt prev t.1) := by
      intro t _
      cases hv : vle t.1 prev
      · simp [(vle_false_iff _ _).mp hv]
      · have : vlt prev t.1 = false := by
          cases h2 : vlt prev t.1
          · rfl
          · exact absurd ((vle_false_iff t.1 prev).mpr h2) (by simp [hv])
        simp [this]
    rw [List.filter_congr hcong]
    exact hperm.filter _
  · rw [migration_filter]
    exact List.Pairwise.sublist (List.dropWhile_sublist _) hs
  · intro hall
    rw [migration_filter, List.dropWhile_eq_nil_iff]
    intro x hx
    exact hall x (hperm.mem_iff.mp hx)

/-- Witness for C7: a previous version at least as new as every
cataloged version selects nothing from the real catalog. -/
theorem migration_filter_gate_witness : migration_filter migration_defs ⟨9, 9, 99, []⟩ = [] := by
  exact (migration_filter_gate migration_defs ⟨9, 9, 99, []⟩).2.2 (by decide)

/-!
Round-trip identity of the parser (C1).  For each alternative: when it
matches, the fragment text followed by the rest is the input, and the
text is nonempty; and on a nonempty input some alternative matches.
-/

/-- Concatenation of the fragment texts, in order. -/
def concatTexts (l : List ConfigurationFragment) : Str :=
  l.foldr (fun f acc => f.text ++ acc) []

theorem rest_shorter {t r s : Str} (happ : t ++ r = s) (hne : t ≠ []) :
    r.length < s.length := by
  rw [← happ, List.length_append]
  cases t with
  | nil => exact absurd rfl hne
  | cons c cs => simp

theorem tryNewline_sound (s : Str) (f : ConfigurationFragment) (r : Str)
    (h : tryNewline s = some (f, r)) : f.text ++ r = s ∧ f.text ≠ [] := by
  cases s with
  | nil => exact absurd h (by simp [tryNewline])
  | cons c rest =>
    simp only [tryNewline] at h
    split at h
    case isTrue hc =>
      simp only [Option.some.injEq, Prod.mk.injEq] at h
      obtain ⟨h1, h2⟩ := h
      subst h1
      subst h2
      subst hc
      exact ⟨rfl, by simp [newline_fragment]⟩
    case isFalse => exact absurd h (by simp)

theorem tryComment_sound (s : Str) (f : ConfigurationFragment) (r : Str)
    (h : tryComment s = some (f, r)) : f.text ++ r = s ∧ f.text ≠ [] := by
  simp only [tryComment] at h
  split at h
  next c t heq =>
    split at h
    case isTrue hc =>
      simp only [Option.some.injEq, Prod.mk.injEq] at h
      obtain ⟨h1, h2⟩ := h
      subst h1
      subst h2
      constructor
      · show (s.takeWhile isWS ++ (s.dropWhile isWS).takeWhile notNL) ++
          (s.dropWhile isWS).dropWhile notNL = s
        rw [List.append_assoc, List.takeWhile_append_dropWhile, List.takeWhile_append_dropWhile]
      · intro hemp
        rcases List.append_eq_nil.mp hemp with ⟨-, h2⟩
        rw [heq] at h2
        subst hc
        simp [List.takeWhile_cons, notNL] at h2
    case isFalse => exact absurd h (by simp)
  next => exact absurd h (by simp)

theorem sectionCont_sound (c : Char) (o : Option (Str × Str × Str)) (nm tl r5 : Str)
    (h : sectionCont c o = some (nm, tl, r5)) :
    ∃ nm2, nm = c :: nm2 ∧ o = some (nm2, tl, r5) := by
  cases o with
  | none => exact absurd h (by simp [sectionCont])
  | some trip =>
    obtain ⟨nm2, tl2, r52⟩ := trip
    simp only [sectionCont, Option.some.injEq, Prod.mk.injEq] at h
    obtain ⟨h1, h2, h3⟩ := h
    subst h2
    subst h3
    exact ⟨nm2, h1.symm, rfl⟩

theorem sectionNameSearch_sound : ∀ (l nm tl r5 : Str),
    sectionNameSearch l = some (nm, tl, r5) → nm ++ (tl ++ r5) = l ∧ nm ≠ [] := by
  intro l
  induction l with
  | nil => intro nm tl r5 h; exact absurd h (by simp [sectionNameSearch])
  | cons c rest ih =>
    intro nm tl r5 h
    simp only [sectionNameSearch] at h
    split at h
    · exact absurd h (by simp)
    · split at h
      next d r5x heq =>
        split at h
        case isTrue hd =>
          simp only [Option.some.injEq, Prod.mk.injEq] at h
          obtain ⟨h1, h2, h3⟩ := h
          subst h1
          subst h2
          subst hd
          rw [h3] at heq
          refine ⟨?_, by simp⟩
          have hr : rest.takeWhile isWS ++ (']' :: r5) = rest := by
            have h0 := List.takeWhile_append_dropWhile (p := isWS) (l := rest)
            rw [heq] at h0
            exact h0
          show [c] ++ ((rest.takeWhile isWS ++ [']']) ++ r5) = c :: rest
          calc [c] ++ ((rest.takeWhile isWS ++ [']']) ++ r5)
              = c :: (rest.takeWhile isWS ++ (']' :: r5)) := by simp
            _ = c :: rest := by rw [hr]
        case isFalse hd =>
          obtain ⟨nm2, rfl, hs⟩ := sectionCont_sound c _ nm tl r5 h
          obtain ⟨he, -⟩ := ih nm2 tl r5 hs
          exact ⟨by simp only [List.cons_append]; rw [he], by simp⟩
      next heq =>
        obtain ⟨nm2, rfl, hs⟩ := sectionCont_sound c _ nm tl r5 h
        obtain ⟨he, -⟩ := ih nm2 tl r5 hs
        exact ⟨by simp only [List.cons_append]; rw [he], by simp⟩

theorem sectionGo_sound : ∀ (rws r3 chunk nm r5 : Str),
    sectionGo rws r3 = some (chunk, nm, r5) → chunk ++ r5 = rws.reverse ++ r3 := by
  intro rws
  induction rws with
  | nil =>
    intro r3 chunk nm r5 h
    simp only [sectionGo] at h
    split at h
    next nm2 tl2 r52 heq =>
      simp only [Option.some.injEq, Prod.mk.injEq] at h
      obtain ⟨h1, h2, h3⟩ := h
      subst h1
      rw [h3] at heq
      have := (sectionNameSearch_sound r3 nm2 tl2 r5 heq).1
      simpa using this
    next => exact absurd h (by simp)
  | cons c rws2 ih =>
    intro r3 chunk nm r5 h
    simp only [sectionGo] at h
    split at h
    next nm2 tl2 r52 heq =>
      simp only [Option.some.injEq, Prod.mk.injEq] at h
      obtain ⟨h1, h2, h3⟩ := h
      subst h1
      rw [h3] at heq
      have := (sectionNameSearch_sound r3 nm2 tl2 r5 heq).1
      simp only [List.append_assoc]
      rw [this]
    next heq =>
      have := ih (c :: r3) chunk nm r5 h
      rw [this]
      simp

theorem trySection_sound (s : Str) (f : ConfigurationFragment) (r : Str)
    (h : trySection s = some (f, r)) : f.text ++ r = s ∧ f.text ≠ [] := by
  simp only [trySection] at h
  split at h
  next c r2 heq =>
    split at h
    case isTrue hc =>
      split at h
      next chunk nm r5 heq2 =>
        simp only [Option.some.injEq, Prod.mk.injEq] at h
        obtain ⟨h1, h2⟩ := h
        subst h1
        subst h2
        refine ⟨?_, by simp⟩
        have hgo := sectionGo_sound _ _ _ _ _ heq2
        rw [List.reverse_reverse] at hgo
        subst hc
        show (s.takeWhile isWS ++ '[' :: (chunk ++ r5.takeWhile isWS)) ++ r5.dropWhile isWS = s
        calc (s.takeWhile isWS ++ '[' :: (chunk ++ r5.takeWhile isWS)) ++ r5.dropWhile isWS
            = s.takeWhile isWS ++
                '[' :: (chunk ++ (r5.takeWhile isWS ++ r5.dropWhile isWS)) := by
              simp [List.append_assoc]
          _ = s.takeWhile isWS ++ '[' :: (chunk ++ r5) := by
              rw [List.takeWhile_append_dropWhile]
          _ = s.takeWhile isWS ++ '[' :: (r2.takeWhile isWS ++ r2.dropWhile isWS) := by
              rw [hgo]
          _ = s.takeWhile isWS ++ '[' :: r2 := by rw [List.takeWhile_append_dropWhile]
          _ = s.takeWhile isWS ++ s.dropWhile isWS := by rw [heq]
          _ = s := List.takeWhile_append_dropWhile isWS s
      next => exact absurd h (by simp)
    case isFalse => exact absurd h (by simp)
  next => exact absurd h (by simp)

theorem valuePart_split (vs : Str) : (valuePart vs).1 ++ (valuePart vs).2.2 = vs := by
  simp only [valuePart]
  rw [List.append_assoc, List.takeWhile_append_dropWhile, List.takeWhile_append_dropWhile]

theorem splitLastEq_sound (run k v0 : Str) (h : splitLastEq run = some (k, v0)) :
    k ++ '=' :: v0 = run ∧ k ≠ [] := by
  simp only [splitLastEq] at h
  split at h
  next d kr heq =>
    split at h
    case isTrue hd =>
      split at h
      case isTrue => exact absurd h (by simp)
      case isFalse hkr =>
        simp only [Option.some.injEq, Prod.mk.injEq] at h
        obtain ⟨h1, h2⟩ := h
        subst h1
        subst h2
        subst hd
        have h0 := List.takeWhile_append_dropWhile (p := notEq) (l := run.reverse)
        rw [heq] at h0
        constructor
        · calc kr.reverse ++ '=' :: (run.reverse.takeWhile notEq).reverse
              = (run.reverse.takeWhile notEq ++ '=' :: kr).reverse := by
                simp [List.reverse_append]
            _ = run.reverse.reverse := by rw [h0]
            _ = run := List.reverse_reverse run
        · intro hemp
          exact hkr (by simpa using congrArg List.reverse hemp)
    case isFalse => exact absurd h (by simp)
  next => exact absurd h (by simp)

theorem kvCaseB_sound (w1 run r2 : Str) (f : ConfigurationFragment) (r : Str)
    (h : kvCaseB w1 run r2 = some (f, r)) : f.text ++ r = w1 ++ (run ++ r2) ∧ f.text ≠ [] := by
  simp only [kvCaseB] at h
  split at h
  next k v0 heqS =>
    rcases hvp : valuePart (v0 ++ r2) with ⟨vc, vv, rest2⟩
    rw [hvp] at h
    simp only [Option.some.injEq, Prod.mk.injEq] at h
    obtain ⟨h1, h2⟩ := h
    subst h1
    subst h2
    obtain ⟨hrun, hk⟩ := splitLastEq_sound run k v0 heqS
    have hv : vc ++ rest2 = v0 ++ r2 := by
      have := valuePart_split (v0 ++ r2)
      rw [hvp] at this
      exact this
    constructor
    · show (w1 ++ k ++ '=' :: vc) ++ rest2 = w1 ++ (run ++ r2)
      rw [← hrun]
      calc (w1 ++ k ++ '=' :: vc) ++ rest2
          = w1 ++ (k ++ '=' :: (vc ++ rest2)) := by simp [List.append_assoc]
        _ = w1 ++ (k ++ '=' :: (v0 ++ r2)) := by rw [hv]
        _ = w1 ++ ((k ++ '=' :: v0) ++ r2) := by simp [List.append_assoc]
    · simp
  next => exact absurd h (by simp)

theorem tryKeyValue_sound (s : Str) (f : ConfigurationFragment) (r : Str)
    (h : tryKeyValue s = some (f, r)) : f.text ++ r = s ∧ f.text ≠ [] := by
  simp only [tryKeyValue] at h
  split at h
  · exact absurd h (by simp)
  · rename_i hrun
    have hsplit : (s.dropWhile isWS).takeWhile notPyS ++ (s.dropWhile isWS).dropWhile notPyS
        = s.dropWhile isWS := List.takeWhile_append_dropWhile notPyS (s.dropWhile isWS)
    split at h
    next d r4 heq2 =>
      split at h
      case isTrue hd =>
        rcases hvp : valuePart r4 with ⟨vc, vv, rest2⟩
        rw [hvp] at h
        simp only [Option.some.injEq, Prod.mk.injEq] at h
        obtain ⟨h1, h2⟩ := h
        subst h1
        subst h2
        subst hd
        have hv : vc ++ rest2 = r4 := by
          have := valuePart_split r4
          rw [hvp] at this
          exact this
        refine ⟨?_, by simp⟩
        have hr2 : ((s.dropWhile isWS).dropWhile notPyS).takeWhile isWS ++ ('=' :: r4)
            = (s.dropWhile isWS).dropWhile notPyS := by
          have h0 := List.takeWhile_append_dropWhile (p := isWS)
            (l := (s.dropWhile isWS).dropWhile notPyS)
          rw [heq2] at h0
          exact h0
        calc (s.takeWhile isWS ++ (s.dropWhile isWS).takeWhile notPyS ++
                ((s.dropWhile isWS).dropWhile notPyS).takeWhile isWS ++ '=' :: vc) ++ rest2
            = s.takeWhile isWS ++ ((s.dropWhile isWS).takeWhile notPyS ++
                (((s.dropWhile isWS).dropWhile notPyS).takeWhile isWS ++
                  '=' :: (vc ++ rest2))) := by simp [List.append_assoc]
          _ = s.takeWhile isWS ++ ((s.dropWhile isWS).takeWhile notPyS ++
                (((s.dropWhile isWS).dropWhile notPyS).takeWhile isWS ++ '=' :: r4)) := by
              rw [hv]
          _ = s.takeWhile isWS ++ ((s.dropWhile isWS).takeWhile notPyS ++
                (s.dropWhile isWS).dropWhile notPyS) := by rw [hr2]
          _ = s.takeWhile isWS ++ s.dropWhile isWS := by rw [hsplit]
          _ = s := List.takeWhile_append_dropWhile isWS s
      case isFalse hd =>
        obtain ⟨ha, hb⟩ := kvCaseB_sound _ _ _ f r h
        refine ⟨?_, hb⟩
        rw [ha, hsplit, List.takeWhile_append_dropWhile]
    next heq2 =>
      obtain ⟨ha, hb⟩ := kvCaseB_sound _ _ _ f r h
      refine ⟨?_, hb⟩
      rw [ha, hsplit, List.takeWhile_append_dropWhile]

theorem tryUnknown_sound (s : Str) (f : ConfigurationFragment) (r : Str)
    (h : tryUnknown s = some (f, r)) : f.text ++ r = s ∧ f.text ≠ [] := by
  simp only [tryUnknown] at h
  split at h
  · exact absurd h (by simp)
  next c t heq =>
    simp only [Option.some.injEq, Prod.mk.injEq] at h
    obtain ⟨h1, h2⟩ := h
    subst h1
    subst h2
    refine ⟨List.takeWhile_append_dropWhile notNL s, ?_⟩
    rw [heq]
    simp

theorem matchFragment_spec (s : Str) (hs : s ≠ []) :
    ∃ f r, matchFragment s = some (f, r) ∧ f.text ++ r = s ∧ f.text ≠ [] := by
  cases h1 : tryNewline s with
  | some p =>
    obtain ⟨f, r⟩ := p
    exact ⟨f, r, by rw [matchFragment, h1], tryNewline_sound s f r h1⟩
  | none =>
  cases h2 : tryComment s with
  | some p =>
    obtain ⟨f, r⟩ := p
    exact ⟨f, r, by rw [matchFragment, h1, h2], tryComment_sound s f r h2⟩
  | none =>
  cases h3 : trySection s with
  | some p =>
    obtain ⟨f, r⟩ := p
    exact ⟨f, r, by rw [matchFragment, h1, h2, h3], trySection_sound s f r h3⟩
  | none =>
  cases h4 : tryKeyValue s with
  | some p =>
    obtain ⟨f, r⟩ := p
    exact ⟨f, r, by rw [matchFragment, h1, h2, h3, h4], tryKeyValue_sound s f r h4⟩
  | none =>
  obtain ⟨c, t, rfl⟩ : ∃ c t, s = c :: t := by
    cases s with
    | nil => exact absurd rfl hs
    | cons c t => exact ⟨c, t, rfl⟩
  have hcnl : ¬ c = '\n' := by
    intro hc
    subst hc
    simp [tryNewline] at h1
  have htw : (c :: t).takeWhile notNL = c :: t.takeWhile notNL := by
    rw [List.takeWhile_cons, if_pos (by simp [notNL, hcnl])]
  have hu : tryUnknown (c :: t) =
      some (⟨(c :: t).takeWhile notNL, ConfigKind.Unknown, [], []⟩, (c :: t).dropWhile notNL) := by
    rw [tryUnknown, htw]
  refine ⟨_, _, by rw [matchFragment, h1, h2, h3, h4, hu], ?_⟩
  exact tryUnknown_sound _ _ _ hu

theorem parseLoop_concat : ∀ (fuel : Nat) (s : Str), s.length ≤ fuel →
    concatTexts (parseLoop fuel s) = s := by
  intro fuel
  induction fuel with
  | zero =>
    intro s hle
    have hnil : s = [] := List.length_eq_zero.mp (Nat.le_zero.mp hle)
    subst hnil
    rfl
  | succ n ih =>
    intro s hle
    cases s with
    | nil => rfl
    | cons c t =>
      obtain ⟨f, r, hm, happ, hne⟩ := matchFragment_spec (c :: t) (by simp)
      rw [parseLoop, hm]
      have hr : r.length ≤ n := by
        have hlt := rest_shorter happ hne
        simp only [List.length_cons] at hlt hle
        omega
      show f.text ++ concatTexts (parseLoop n r) = c :: t
      rw [ih r hr, happ]

/-- C1.  Round-trip identity of the parser: for every input, the
concatenation of the text fields of the fragments returned by
`parse_configuration`, in order, reproduces the input exactly (every
character of the input belongs to exactly one fragment). -/
theorem parse_roundtrip (s : Str) : concatTexts (parse_configuration s) = s :=
  parseLoop_concat s.length s (Nat.le_refl _)

/-!
Empty sections and the span index (C10, also used by C5).
-/

/-- Every Section fragment named `A` in the list is immediately followed
by another Section fragment or is the last fragment of the list. -/
def immediateB (A : Str) : List ConfigurationFragment → Bool
  | [] => true
  | f :: rest =>
    ((!(f.kind == ConfigKind.Section && f.value1 == A)) ||
      (match rest with
       | [] => true
       | g :: _ => g.kind == ConfigKind.Section)) && immediateB A rest

theorem assocGet_addSpan_ne (m : List (Str × List (Nat × Nat))) (B A : Str)
    (sp : Nat × Nat) (hne : ¬ B = A) :
    assocGet (addSpan m B sp) A = assocGet m A := by
  induction m with
  | nil => simp [addSpan, assocGet, hne]
  | cons p rest ih =>
    obtain ⟨k, v⟩ := p
    by_cases hk : k = B
    · subst hk
      simp [addSpan, assocGet, hne]
    · by_cases hka : k = A
      · subst hka
        simp [addSpan, assocGet, hk]
      · simp [addSpan, assocGet, hk, hka, ih]

theorem spanFold_i : ∀ (l : List ConfigurationFragment) (acc : SpanAcc),
    (l.foldl spanStep acc).i = acc.i + l.length := by
  intro l
  induction l with
  | nil => intro acc; rfl
  | cons f rest ih =>
    intro acc
    have hstep : (spanStep acc f).i = acc.i + 1 := by
      rw [spanStep]
      split <;> rfl
    simp only [List.foldl_cons, List.length_cons]
    rw [ih, hstep]
    omega

theorem span_none_aux (A : Str) :
    ∀ (l : List ConfigurationFragment) (acc : SpanAcc),
      immediateB A l = true →
      assocGet acc.spans A = none →
      (acc.sect = A →
        (acc.start + 1 = acc.i ∧
          (l = [] ∨ ∃ g t, l = g :: t ∧ g.kind = ConfigKind.Section))) →
      assocGet (l.foldl spanStep acc).spans A = none ∧
        ((l.foldl spanStep acc).sect = A → (l.foldl spanStep acc).start + 1 =
          (l.foldl spanStep acc).i) := by
  intro l
  induction l with
  | nil =>
    intro acc h1 h2 h3
    exact ⟨h2, fun hs => (h3 hs).1⟩
  | cons f rest ih =>
    intro acc h1 h2 h3
    have h1p : immediateB A rest = true ∧
        ((f.kind = ConfigKind.Section ∧ f.value1 = A) →
          (rest = [] ∨ ∃ g t, rest = g :: t ∧ g.kind = ConfigKind.Section)) := by
      simp only [immediateB, Bool.and_eq_true, Bool.or_eq_true, Bool.not_eq_true] at h1
      refine ⟨h1.2, ?_⟩
      intro ⟨hk, hv⟩
      rcases h1.1 with hfalse | hnext
      · exfalso
        simp [hk, hv] at hfalse
      · cases hrest : rest with
        | nil => exact Or.inl rfl
        | cons g t =>
          refine Or.inr ⟨g, t, rfl, ?_⟩
          rw [hrest] at hnext
          simpa using hnext
    by_cases hsec : f.kind = ConfigKind.Section
    · have hstep : spanStep acc f =
          { start := acc.i, sect := f.value1,
            spans := if acc.start < acc.i - 1 then addSpan acc.spans acc.sect (acc.start, acc.i - 1)
                     else acc.spans,
            i := acc.i + 1 } := by
        rw [spanStep, if_pos hsec]
      have hspans2 : assocGet (spanStep acc f).spans A = none := by
        rw [hstep]
        by_cases hgd : acc.start < acc.i - 1
        · rw [if_pos hgd]
          by_cases hsA : acc.sect = A
          · exfalso
            have := (h3 hsA).1
            omega
          · rw [assocGet_addSpan_ne acc.spans acc.sect A _ hsA]
            exact h2
        · rw [if_neg hgd]
          exact h2
      simp only [List.foldl_cons]
      apply ih (spanStep acc f) h1p.1 hspans2
      intro hsA
      rw [hstep] at hsA
      constructor
      · rw [hstep]
      · exact h1p.2 ⟨hsec, hsA⟩
    · have hstep : spanStep acc f = { acc with i := acc.i + 1 } := by
        rw [spanStep, if_neg hsec]
      simp only [List.foldl_cons]
      apply ih (spanStep acc f) h1p.1 (by rw [hstep]; exact h2)
      intro hsA
      rw [hstep] at hsA
      exfalso
      rcases (h3 hsA).2 with hnil | ⟨g, t, heq, hg⟩
      · cases hnil
      · have : g = f := by
          injection heq with h1 h2
          exact h1.symm
        subst this
        exact hsec hg

/-- If every Section fragment named `A` (nonempty) is immediately
followed by another Section fragment or is last, the section index has
no entry for `A`. -/
theorem span_none_of_immediate (fragments : List ConfigurationFragment) (A : Str)
    (hA : A ≠ []) (H : immediateB A fragments = true) :
    assocGet (fragments_to_spans_of_sections fragments) A = none := by
  have haux := span_none_aux A fragments ⟨0, [], [], 0⟩ H (by rfl)
    (by intro hs; exact absurd hs.symm hA)
  rw [fragments_to_spans_of_sections]
  set accF := fragments.foldl spanStep ⟨0, [], [], 0⟩ with haccF
  have hi : accF.i = fragments.length := by
    rw [haccF, spanFold_i]
    show 0 + fragments.length = fragments.length
    omega
  by_cases hgd : accF.start < (if fragments.length = 0 then 0 else fragments.length - 1) - 1
  · rw [if_pos hgd]
    by_cases hsA : accF.sect = A
    · exfalso
      have hst := haux.2 hsA
      rw [hi] at hst
      by_cases h0 : fragments.length = 0
      · rw [if_pos h0] at hgd
        omega
      · rw [if_neg h0] at hgd
        omega
    · rw [assocGet_addSpan_ne accF.spans accF.sect A _ hsA]
      exact haux.1
  · rw [if_neg hgd]
    exact haux.1

/-!
Characterization of the action walk for the two single-entry
descriptions used by C5 and C10.
-/

theorem walk_remove_def (S : Str) :
    ∀ (l : List ConfigurationFragment) (st : ActionState),
      st.migration_key_desc = none →
      ((l.foldl (actionsStep [(S, MigSectionOrder.remove)]) st).migration_key_desc = none ∧
       (l.foldl (actionsStep [(S, MigSectionOrder.remove)]) st).renamed_sections =
         st.renamed_sections ∧
       (l.foldl (actionsStep [(S, MigSectionOrder.remove)]) st).renamed_keys = st.renamed_keys ∧
       (l.foldl (actionsStep [(S, MigSectionOrder.remove)]) st).moved_keys = st.moved_keys ∧
       (l.foldl (actionsStep [(S, MigSectionOrder.remove)]) st).removed_keys = st.removed_keys ∧
       (l.foldl (actionsStep [(S, MigSectionOrder.remove)]) st).removed_sections =
         st.removed_sections ++
           (l.filter (fun f => f.kind == ConfigKind.Section && f.value1 == S)).map
             (fun _ => S)) := by
  intro l
  induction l with
  | nil =>
    intro st hdesc
    exact ⟨hdesc, rfl, rfl, rfl, rfl, by simp⟩
  | cons f rest ih =>
    intro st hdesc
    by_cases hkv : f.kind = ConfigKind.KeyValue
    · have hstep : actionsStep [(S, MigSectionOrder.remove)] st f = st := by
        rw [actionsStep, if_pos hkv, hdesc]
      have hfilter : (f.kind == ConfigKind.Section && f.value1 == S) = false := by
        simp [hkv]
      simp only [List.foldl_cons, hstep, List.filter_cons, hfilter, Bool.false_eq_true,
        if_false]
      exact ih st hdesc
    · by_cases hsec : f.kind = ConfigKind.Section
      · by_cases hv : S = f.value1
        · have hstep : actionsStep [(S, MigSectionOrder.remove)] st f =
              { st with migration_key_desc := none, sect := f.value1,
                        original_section := f.value1,
                        removed_sections := st.removed_sections ++ [f.value1] } := by
            rw [actionsStep, if_neg hkv, if_pos hsec]
            have hget : assocGet [(S, MigSectionOrder.remove)] f.value1 =
                some MigSectionOrder.remove := by
              simp [assocGet, hv]
            rw [hget]
          have hfilter : (f.kind == ConfigKind.Section && f.value1 == S) = true := by
            simp [hsec, hv.symm]
          obtain ⟨i1, i2, i3, i4, i5, i6⟩ := ih
            { st with migration_key_desc := none, sect := f.value1,
                      original_section := f.value1,
                      removed_sections := st.removed_sections ++ [f.value1] } rfl
          simp only [List.foldl_cons, hstep, List.filter_cons, hfilter, if_true]
          refine ⟨i1, i2, i3, i4, i5, ?_⟩
          rw [i6]
          simp [← hv, List.append_assoc]
        · have hstep : actionsStep [(S, MigSectionOrder.remove)] st f =
              { st with migration_key_desc := none, sect := f.value1,
                        original_section := f.value1 } := by
            rw [actionsStep, if_neg hkv, if_pos hsec]
            have hget : assocGet [(S, MigSectionOrder.remove)] f.value1 = none := by
              simp [assocGet, hv]
            rw [hget]
          have hfilter : (f.kind == ConfigKind.Section && f.value1 == S) = false := by
            have hb2 : (f.value1 == S) = false := by
              cases hb : (f.value1 == S)
              · rfl
              · exact absurd (beq_iff_eq.mp hb).symm hv
            simp [hb2]
          obtain ⟨i1, i2, i3, i4, i5, i6⟩ := ih
            { st with migration_key_desc := none, sect := f.value1,
                      original_section := f.value1 } rfl
          simp only [List.foldl_cons, hstep, List.filter_cons, hfilter, Bool.false_eq_true,
            if_false]
          exact ⟨i1, i2, i3, i4, i5, i6⟩
      · have hstep : actionsStep [(S, MigSectionOrder.remove)] st f = st := by
          rw [actionsStep, if_neg hkv, if_neg hsec]
        have hfilter : (f.kind == ConfigKind.Section && f.value1 == S) = false := by
          simp [hsec]
        simp only [List.foldl_cons, hstep, List.filter_cons, hfilter, Bool.false_eq_true,
          if_false]
        exact ih st hdesc

theorem walk_move_def (A B : Str) :
    ∀ (l : List ConfigurationFragment) (st : ActionState),
      st.migration_key_desc = none →
      ((l.foldl (actionsStep [(A, MigSectionOrder.moveSection B)]) st).migration_key_desc =
         none ∧
       (l.foldl (actionsStep [(A, MigSectionOrder.moveSection B)]) st).renamed_keys =
         st.renamed_keys ∧
       (l.foldl (actionsStep [(A, MigSectionOrder.moveSection B)]) st).moved_keys =
         st.moved_keys ∧
       (l.foldl (actionsStep [(A, MigSectionOrder.moveSection B)]) st).removed_keys =
         st.removed_keys ∧
       (l.foldl (actionsStep [(A, MigSectionOrder.moveSection B)]) st).removed_sections =
         st.removed_sections ∧
       (l.foldl (actionsStep [(A, MigSectionOrder.moveSection B)]) st).renamed_sections =
         st.renamed_sections ++
           (l.filter (fun f => f.kind == ConfigKind.Section && f.value1 == A)).map
             (fun _ => (A, B))) := by
  intro l
  induction l with
  | nil =>
    intro st hdesc
    exact ⟨hdesc, rfl, rfl, rfl, rfl, by simp⟩
  | cons f rest ih =>
    intro st hdesc
    by_cases hkv : f.kind = ConfigKind.KeyValue
    · have hstep : actionsStep [(A, MigSectionOrder.moveSection B)] st f = st := by
        rw [actionsStep, if_pos hkv, hdesc]
      have hfilter : (f.kind == ConfigKind.Section && f.value1 == A) = false := by
        simp [hkv]
      simp only [List.foldl_cons, hstep, List.filter_cons, hfilter, Bool.false_eq_true,
        if_false]
      exact ih st hdesc
    · by_cases hsec : f.kind = ConfigKind.Section
      · by_cases hv : A = f.value1
        · have hstep : actionsStep [(A, MigSectionOrder.moveSection B)] st f =
              { st with migration_key_desc := none, sect := f.value1,
                        original_section := f.value1,
                        renamed_sections := st.renamed_sections ++ [(f.value1, B)] } := by
            rw [actionsStep, if_neg hkv, if_pos hsec]
            have hget : assocGet [(A, MigSectionOrder.moveSection B)] f.value1 =
                some (MigSectionOrder.moveSection B) := by
              simp [assocGet, hv]
            rw [hget]
          have hfilter : (f.kind == ConfigKind.Section && f.value1 == A) = true := by
            simp [hsec, hv.symm]
          obtain ⟨i1, i2, i3, i4, i5, i6⟩ := ih
            { st with migration_key_desc := none, sect := f.value1,
                      original_section := f.value1,
                      renamed_sections := st.renamed_sections ++ [(f.value1, B)] } rfl
          simp only [List.foldl_cons, hstep, List.filter_cons, hfilter, if_true]
          refine ⟨i1, i2, i3, i4, i5, ?_⟩
          rw [i6]
          simp [← hv, List.append_assoc]
        · have hstep : actionsStep [(A, MigSectionOrder.moveSection B)] st f =
              { st with migration_key_desc := none, sect := f.value1,
                        original_section := f.value1 } := by
            rw [actionsStep, if_neg hkv, if_pos hsec]
            have hget : assocGet [(A, MigSectionOrder.moveSection B)] f.value1 = none := by
              simp [assocGet, hv]
            rw [hget]
          have hfilter : (f.kind == ConfigKind.Section && f.value1 == A) = false := by
            have hb2 : (f.value1 == A) = false := by
              cases hb : (f.value1 == A)
              · rfl
              · exact absurd (beq_iff_eq.mp hb).symm hv
            simp [hb2]
          obtain ⟨i1, i2, i3, i4, i5, i6⟩ := ih
            { st with migration_key_desc := none, sect := f.value1,
                      original_section := f.value1 } rfl
          simp only [List.foldl_cons, hstep, List.filter_cons, hfilter, Bool.false_eq_true,
            if_false]
          exact ⟨i1, i2, i3, i4, i5, i6⟩
      · have hstep : actionsStep [(A, MigSectionOrder.moveSection B)] st f = st := by
          rw [actionsStep, if_neg hkv, if_neg hsec]
        have hfilter : (f.kind == ConfigKind.Section && f.value1 == A) = false := by
          simp [hsec]
        simp only [List.foldl_cons, hstep, List.filter_cons, hfilter, Bool.false_eq_true,
          if_false]
        exact ih st hdesc

theorem concat_nil {α : Type} : ∀ L : List (List α), (∀ x ∈ L, x = []) →
    L.foldr (· ++ ·) [] = [] := by
  intro L h
  induction L with
  | nil => rfl
  | cons x rest ih =>
    simp only [List.foldr_cons]
    rw [h x (by simp), ih (fun y hy => h y (by simp [hy]))]
    rfl

theorem actions_remove_def (fragments : List ConfigurationFragment) (S : Str) :
    migration_def_to_actions fragments [(S, MigSectionOrder.remove)] =
      ([], [], [],
       (fragments.filter (fun f => f.kind == ConfigKind.Section && f.value1 == S)).map
         (fun _ => S), []) := by
  obtain ⟨h1, h2, h3, h4, h5, h6⟩ := walk_remove_def S fragments initActionState rfl
  simp only [migration_def_to_actions]
  rw [h2, h3, h4, h5, h6]
  rfl

theorem actions_move_def (fragments : List ConfigurationFragment) (A B : Str) :
    migration_def_to_actions fragments [(A, MigSectionOrder.moveSection B)] =
      ((fragments.filter (fun f => f.kind == ConfigKind.Section && f.value1 == A)).map
         (fun _ => (A, B)), [], [], [], []) := by
  obtain ⟨h1, h2, h3, h4, h5, h6⟩ := walk_move_def A B fragments initActionState rfl
  simp only [migration_def_to_actions]
  rw [h2, h3, h4, h5, h6]
  rfl

theorem regs_remove_nil (fragments : List ConfigurationFragment) (S : Str)
    (hspan : assocGet (fragments_to_spans_of_sections fragments) S = none) :
    migrate_registrations fragments [(S, MigSectionOrder.remove)] = [] := by
  have hsg : spansGet (fragments_to_spans_of_sections fragments) S = [] := by
    rw [spansGet, hspan]
    rfl
  have hrs : removeSectionRegs fragments (fragments_to_spans_of_sections fragments)
      ((fragments.filter (fun f => f.kind == ConfigKind.Section && f.value1 == S)).map
        (fun _ => S)) = [] := by
    rw [removeSectionRegs]
    apply concat_nil
    intro x hx
    rcases List.mem_map.mp hx with ⟨sect, hsect, rfl⟩
    rcases List.mem_map.mp hsect with ⟨f, hf, rfl⟩
    simp only [covChunk]
    rw [hsg]
    rfl
  simp only [migrate_registrations, actions_remove_def]
  rw [hrs]
  rfl

theorem regs_move_nil (fragments : List ConfigurationFragment) (A B : Str)
    (hspan : assocGet (fragments_to_spans_of_sections fragments) A = none) :
    migrate_registrations fragments [(A, MigSectionOrder.moveSection B)] = [] := by
  have hsg : spansGet (fragments_to_spans_of_sections fragments) A = [] := by
    rw [spansGet, hspan]
    rfl
  have hrs : renameSectionRegs fragments (fragments_to_spans_of_sections fragments)
      ((fragments.filter (fun f => f.kind == ConfigKind.Section && f.value1 == A)).map
        (fun _ => (A, B))) = [] := by
    rw [renameSectionRegs]
    apply concat_nil
    intro x hx
    rcases List.mem_map.mp hx with ⟨e, he, rfl⟩
    rcases List.mem_map.mp he with ⟨f, hf, rfl⟩
    rw [hsg]
    rfl
  simp only [migrate_registrations, actions_move_def]
  rw [hrs]
  rfl

theorem rebuildStep_nil (res : List ConfigurationFragment) (p : Nat × ConfigurationFragment) :
    rebuildStep [] (res, []) p = (res ++ [p.2], []) := by
  rw [rebuildStep]
  cases hf : [p.2].find? (fun x => x.kind == ConfigKind.Section) with
  | none => simp [reinjectGet, hf]
  | some x =>
    by_cases hv : x.value1 = []
    · simp [reinjectGet, hf, hv]
    · simp [reinjectGet, hf, hv, assocGet]

theorem rebuild_nil : ∀ (l : List ConfigurationFragment) (n : Nat)
    (res : List ConfigurationFragment),
    (enumF n l).foldl (rebuildStep []) (res, []) = (res ++ l, []) := by
  intro l
  induction l with
  | nil => intro n res; simp [enumF]
  | cons f t ih =>
    intro n res
    show ((n, f) :: enumF (n + 1) t).foldl (rebuildStep []) (res, []) = (res ++ f :: t, [])
    rw [List.foldl_cons, rebuildStep_nil]
    rw [ih (n + 1) (res ++ [f])]
    simp

theorem migrate_remove_unchanged (fragments : List ConfigurationFragment) (S : Str)
    (hspan : assocGet (fragments_to_spans_of_sections fragments) S = none) :
    (migrate fragments [(S, MigSectionOrder.remove)]).2 = fragments := by
  have hregs := regs_remove_nil fragments S hspan
  by_cases hX : (fragments.filter (fun f => f.kind == ConfigKind.Section && f.value1 == S)).map
      (fun _ => S) = []
  · simp [migrate, actions_remove_def, hX]
  · simp only [migrate, actions_remove_def, hregs]
    have hfil : fragments.filter (fun f => f.kind == ConfigKind.Section && f.value1 == S) ≠ [] := by
      intro h0
      exact hX (by rw [h0]; rfl)
    obtain ⟨x, hxmem⟩ := List.exists_mem_of_ne_nil _ hfil
    have hx2 := List.mem_filter.mp hxmem
    have hexist : ∃ x ∈ fragments, x.kind = ConfigKind.Section ∧ x.value1 = S := by
      refine ⟨x, hx2.1, ?_⟩
      have hx3 := hx2.2
      simp only [Bool.and_eq_true, beq_iff_eq] at hx3
      exact hx3
    rw [if_neg (by simp; exact hexist)]
    have ha0 : addedKeys0 fragments (fragments_to_spans_of_sections fragments) [] = [] := rfl
    rw [ha0, rebuild_nil fragments 0 []]
    rfl

theorem migrate_move_unchanged (fragments : List ConfigurationFragment) (A B : Str)
    (hspan : assocGet (fragments_to_spans_of_sections fragments) A = none) :
    (migrate fragments [(A, MigSectionOrder.moveSection B)]).2 = fragments := by
  have hregs := regs_move_nil fragments A B hspan
  by_cases hX : (fragments.filter (fun f => f.kind == ConfigKind.Section && f.value1 == A)).map
      (fun _ => (A, B)) = []
  · simp [migrate, actions_move_def, hX]
  · simp only [migrate, actions_move_def, hregs]
    have hfil : fragments.filter (fun f => f.kind == ConfigKind.Section && f.value1 == A) ≠ [] := by
      intro h0
      exact hX (by rw [h0]; rfl)
    obtain ⟨x, hxmem⟩ := List.exists_mem_of_ne_nil _ hfil
    have hx2 := List.mem_filter.mp hxmem
    have hexist : ∃ x ∈ fragments, x.kind = ConfigKind.Section ∧ x.value1 = A := by
      refine ⟨x, hx2.1, ?_⟩
      have hx3 := hx2.2
      simp only [Bool.and_eq_true, beq_iff_eq] at hx3
      exact hx3
    rw [if_neg (by simp; exact hexist)]
    have ha0 : addedKeys0 fragments (fragments_to_spans_of_sections fragments) [] = [] := rfl
    rw [ha0, rebuild_nil fragments 0 []]
    rfl

/-- C10 (amended: for a nonempty section name).  A Section fragment with
nonempty name `A` that is immediately followed by another Section
fragment, or is the last fragment — for all occurrences of `A` — gives
`A` no entry in the section index, and a rename-section or
remove-section rule naming `A` leaves the whole fragment sequence (in
particular that header fragment) unchanged in the output of `migrate`. -/
theorem empty_section_immune (fragments : List ConfigurationFragment) (A B : Str)
    (hA : A ≠ []) (H : immediateB A fragments = true) :
    assocGet (fragments_to_spans_of_sections fragments) A = none ∧
    (migrate fragments [(A, MigSectionOrder.remove)]).2 = fragments ∧
    (migrate fragments [(A, MigSectionOrder.moveSection B)]).2 = fragments := by
  have hspan := span_none_of_immediate fragments A hA H
  exact ⟨hspan, migrate_remove_unchanged fragments A hspan,
    migrate_move_unchanged fragments A B hspan⟩

/-- A sequence where section `a` is a header immediately followed by the
header of section `b`. -/
def fragsTwoHeaders : List ConfigurationFragment :=
  [mkSection (str "a"), mkSection (str "b"), newline_fragment,
   mkKeyValue (str "k") (str "v"), newline_fragment, newline_fragment]

/-- Witness for C10: the empty section `a` gets no span entry and is
untouched by a remove-section rule. -/
theorem empty_section_immune_witness :
    assocGet (fragments_to_spans_of_sections fragsTwoHeaders) (str "a") = none ∧
    (migrate fragsTwoHeaders [(str "a", MigSectionOrder.remove)]).2 = fragsTwoHeaders := by
  have h := empty_section_immune fragsTwoHeaders (str "a") (str "c") (by decide) (by decide)
  exact ⟨h.1, h.2.1⟩

/-- A sequence ending in a Section fragment whose name is the empty
string, preceded by an implicit-section body. -/
def fragsEmptyNameLast : List ConfigurationFragment :=
  [mkKeyValue (str "k") (str "v"), newline_fragment, newline_fragment,
   ConfigurationFragment.mk (str "[]") ConfigKind.Section [] []]

/-- C10 counterexample: a Section fragment that is the last fragment of
the sequence but carries the empty name does receive a span in the
section index (the span of the implicit empty-named section), contrary
to the claim read over every fragment sequence. -/
theorem empty_name_section_gets_span :
    (fragsEmptyNameLast.get? 3).map (fun f => f.kind) = some ConfigKind.Section ∧
    (fragsEmptyNameLast.get? 3).map (fun f => f.value1) = some [] ∧
    fragsEmptyNameLast.length = 4 ∧
    assocGet (fragments_to_spans_of_sections fragsEmptyNameLast) [] = some [(0, 2)] := by
  decide

/-!
Generic lemmas about `enumF`, concatenation, and the reinjection
dictionary, used by the frame theorem for section removal (C5).
-/

theorem enumF_length {α : Type} : ∀ (l : List α) (n : Nat), (enumF n l).length = l.length := by
  intro l
  induction l with
  | nil => intro n; rfl
  | cons x xs ih => intro n; simp [enumF, ih]

theorem enumF_get? {α : Type} : ∀ (l : List α) (n k : Nat),
    (enumF n l).get? k = (l.get? k).map (fun x => (n + k, x)) := by
  intro l
  induction l with
  | nil => intro n k; simp [enumF]
  | cons x xs ih =>
    intro n k
    cases k with
    | zero => rfl
    | succ k2 =>
      show (enumF (n + 1) xs).get? k2 = (xs.get? k2).map (fun x => (n + (k2 + 1), x))
      rw [ih (n + 1) k2]
      have he : n + 1 + k2 = n + (k2 + 1) := by omega
      rw [he]

theorem enumF_mem {α : Type} : ∀ (l : List α) (n : Nat) (p : Nat × α),
    p ∈ enumF n l → ∃ k, p.1 = n + k ∧ l.get? k = some p.2 := by
  intro l
  induction l with
  | nil => intro n p hp; cases hp
  | cons x xs ih =>
    intro n p hp
    rcases List.mem_cons.mp hp with rfl | hp2
    · exact ⟨0, rfl, rfl⟩
    · obtain ⟨k, hk1, hk2⟩ := ih (n + 1) p hp2
      exact ⟨k + 1, by omega, hk2⟩

theorem mem_concatAll {α : Type} : ∀ (L : List (List α)) (x : α),
    x ∈ L.foldr (· ++ ·) [] ↔ ∃ l ∈ L, x ∈ l := by
  intro L
  induction L with
  | nil => intro x; simp
  | cons y rest ih =>
    intro x
    simp only [List.foldr_cons, List.mem_append, ih, List.mem_cons]
    constructor
    · rintro (hx | ⟨l, hl, hx⟩)
      · exact ⟨y, Or.inl rfl, hx⟩
      · exact ⟨l, Or.inr hl, hx⟩
    · rintro ⟨l, (rfl | hl), hx⟩
      · exact Or.inl hx
      · exact Or.inr ⟨l, hl, hx⟩

theorem reinjectGet_uniform_aux (valOf : Nat → List ConfigurationFragment) (i : Nat) :
    ∀ (regs : List (Nat × List ConfigurationFragment))
      (acc : Option (List ConfigurationFragment)),
      (∀ e ∈ regs, e.2 = valOf e.1) →
      regs.foldl (fun acc e => if e.1 = i then some e.2 else acc) acc =
        if i ∈ regs.map Prod.fst then some (valOf i) else acc := by
  intro regs
  induction regs with
  | nil => intro acc h; simp
  | cons e rest ih =>
    intro acc h
    simp only [List.foldl_cons]
    rw [ih _ (fun y hy => h y (List.mem_cons_of_mem e hy))]
    by_cases hmem : i ∈ rest.map Prod.fst
    · rw [if_pos hmem, if_pos (by simp only [List.map_cons, List.mem_cons]; exact Or.inr hmem)]
    · rw [if_neg hmem]
      by_cases hei : e.1 = i
      · rw [if_pos hei]
        have he2 := h e (by simp)
        rw [he2, hei]
        rw [if_pos (by simp only [List.map_cons, List.mem_cons]; exact Or.inl hei.symm)]
      · rw [if_neg hei]
        have hnotin : ¬ i ∈ (e :: rest).map Prod.fst := by
          simp only [List.map_cons, List.mem_cons]
          rintro (h1 | h2)
          · exact hei h1.symm
          · exact hmem h2
        rw [if_neg hnotin]

theorem reinjectGet_uniform (valOf : Nat → List ConfigurationFragment)
    (regs : List (Nat × List ConfigurationFragment)) (i : Nat)
    (h : ∀ e ∈ regs, e.2 = valOf e.1) :
    reinjectGet regs i = if i ∈ regs.map Prod.fst then some (valOf i) else none :=
  reinjectGet_uniform_aux valOf i regs none h

/-- The single comment replacement for a covered fragment index. -/
def covVal (fragments : List ConfigurationFragment) (i : Nat) : List ConfigurationFragment :=
  match fragments.get? i with
  | some fr => [comment_out fr]
  | none => []

theorem rebuildStep_added_nil (regs : List (Nat × List ConfigurationFragment))
    (res : List ConfigurationFragment) (p : Nat × ConfigurationFragment) :
    rebuildStep regs (res, []) p = (res ++ (reinjectGet regs p.1).getD [p.2], []) := by
  rw [rebuildStep]
  cases hf : ((reinjectGet regs p.1).getD [p.2]).find? (fun x => x.kind == ConfigKind.Section) with
  | none => simp [hf]
  | some x =>
    by_cases hv : x.value1 = []
    · simp [hf, hv]
    · simp [hf, hv, assocGet]

theorem rebuild_added_nil : ∀ (l : List ConfigurationFragment) (n : Nat)
    (res : List ConfigurationFragment) (regs : List (Nat × List ConfigurationFragment)),
    (enumF n l).foldl (rebuildStep regs) (res, []) =
      (res ++ ((enumF n l).map (fun p => (reinjectGet regs p.1).getD [p.2])).foldr (· ++ ·) [],
       []) := by
  intro l
  induction l with
  | nil => intro n res regs; simp [enumF]
  | cons f t ih =>
    intro n res regs
    show ((n, f) :: enumF (n + 1) t).foldl (rebuildStep regs) (res, []) = _
    rw [List.foldl_cons, rebuildStep_added_nil, ih (n + 1)]
    simp [List.append_assoc, enumF]

theorem concat_map_singleton {α β : Type} (L : List α) (f : α → List β) (g : α → β)
    (h : ∀ x ∈ L, f x = [g x]) : (L.map f).foldr (· ++ ·) [] = L.map g := by
  induction L with
  | nil => rfl
  | cons x rest ih =>
    simp only [List.map_cons, List.foldr_cons]
    rw [h x (by simp), ih (fun y hy => h y (by simp [hy]))]
    rfl

theorem immediateB_of_no_header (S : Str) : ∀ l : List ConfigurationFragment,
    (∀ f ∈ l, ¬(f.kind = ConfigKind.Section ∧ f.value1 = S)) → immediateB S l = true := by
  intro l
  induction l with
  | nil => intro h; rfl
  | cons f t ih =>
    intro h
    have hf : (f.kind == ConfigKind.Section && f.value1 == S) = false := by
      cases hk : (f.kind == ConfigKind.Section)
      · simp [hk]
      · cases hv : (f.value1 == S)
        · simp [hv]
        · exact absurd ⟨beq_iff_eq.mp hk, beq_iff_eq.mp hv⟩ (h f (by simp))
    simp [immediateB, hf, ih (fun g hg => h g (by simp [hg]))]

theorem covChunk_mem (fragments : List ConfigurationFragment)
    (spans : List (Str × List (Nat × Nat))) (S : Str) (e : Nat × List ConfigurationFragment) :
    e ∈ covChunk fragments spans S ↔
      (e.1 ∈ iter_from_spans (spansGet spans S) ∧
       ∃ fr, fragments.get? e.1 = some fr ∧
         (fr.kind = ConfigKind.KeyValue ∨ fr.kind = ConfigKind.Section) ∧
         e.2 = [comment_out fr]) := by
  rw [covChunk, List.mem_filterMap]
  constructor
  · rintro ⟨a, ha, hfa⟩
    split at hfa
    next fr hga =>
      split at hfa
      next hk =>
        have he : e = (a, [comment_out fr]) := by
          injection hfa with h1
          exact h1.symm
        subst he
        exact ⟨ha, fr, hga, hk, rfl⟩
      next hk => cases hfa
    next hga => cases hfa
  · rintro ⟨hmem, fr, hget, hk, hval⟩
    refine ⟨e.1, hmem, ?_⟩
    rw [hget]
    show (if fr.kind = ConfigKind.KeyValue ∨ fr.kind = ConfigKind.Section then
        some (e.1, [comment_out fr]) else none) = some e
    rw [if_pos hk, ← hval]

theorem removeSectionRegs_spec (fragments : List ConfigurationFragment)
    (spans : List (Str × List (Nat × Nat))) (rems : List Str) (S : Str)
    (hall : ∀ s ∈ rems, s = S) :
    (∀ e ∈ removeSectionRegs fragments spans rems, e.2 = covVal fragments e.1) ∧
    (rems ≠ [] → ∀ i : Nat,
      (i ∈ (removeSectionRegs fragments spans rems).map Prod.fst ↔
        (i ∈ iter_from_spans (spansGet spans S) ∧
         ∃ fr, fragments.get? i = some fr ∧
           (fr.kind = ConfigKind.KeyValue ∨ fr.kind = ConfigKind.Section)))) := by
  have hmain : ∀ e, e ∈ removeSectionRegs fragments spans rems ↔
      ((∃ s, s ∈ rems) ∧ e ∈ covChunk fragments spans S) := by
    intro e
    rw [removeSectionRegs, mem_concatAll]
    constructor
    · rintro ⟨l, hl, he⟩
      rcases List.mem_map.mp hl with ⟨sect, hsect, rfl⟩
      have hsS := hall sect hsect
      subst hsS
      exact ⟨⟨sect, hsect⟩, he⟩
    · rintro ⟨⟨s, hs⟩, he⟩
      have hsS := hall s hs
      refine ⟨covChunk fragments spans s, List.mem_map_of_mem _ hs, ?_⟩
      rw [hsS]
      exact he
  constructor
  · intro e he
    obtain ⟨-, hchunk⟩ := (hmain e).mp he
    obtain ⟨hcov, fr, hget, hk, hval⟩ := (covChunk_mem fragments spans S e).mp hchunk
    rw [hval, covVal, hget]
  · intro hne i
    constructor
    · intro hi
      rcases List.mem_map.mp hi with ⟨e, he, rfl⟩
      obtain ⟨-, hchunk⟩ := (hmain e).mp he
      obtain ⟨hcov, fr, hget, hk, hval⟩ := (covChunk_mem fragments spans S e).mp hchunk
      exact ⟨hcov, fr, hget, hk⟩
    · rintro ⟨hcov, fr, hget, hk⟩
      have hchunk : (i, [comment_out fr]) ∈ covChunk fragments spans S :=
        (covChunk_mem fragments spans S (i, [comment_out fr])).mpr ⟨hcov, fr, hget, hk, rfl⟩
      obtain ⟨s0, hs0⟩ := List.exists_mem_of_ne_nil rems hne
      have hee : (i, [comment_out fr]) ∈ removeSectionRegs fragments spans rems :=
        (hmain _).mpr ⟨⟨s0, hs0⟩, hchunk⟩
      exact List.mem_map_of_mem Prod.fst hee

/-- C5 (amended: the removed section has a nonempty name).  Removing a
whole section replaces every Section or KeyValue fragment whose index
lies inside the section`s computed spans by the single Comment fragment
`#` + original text, and leaves every other fragment unchanged at its
index; the output has the same length as the input. -/
theorem remove_section_frame (fragments : List ConfigurationFragment) (S : Str)
    (hS : S ≠ []) :
    (migrate fragments [(S, MigSectionOrder.remove)]).2.length = fragments.length ∧
    (∀ i f, fragments.get? i = some f →
      (migrate fragments [(S, MigSectionOrder.remove)]).2.get? i =
        some (if (i ∈ iter_from_spans (spansGet (fragments_to_spans_of_sections fragments) S) ∧
                  (f.kind = ConfigKind.KeyValue ∨ f.kind = ConfigKind.Section))
              then comment_out f else f)) := by
  by_cases hX : fragments.filter (fun f => f.kind == ConfigKind.Section && f.value1 == S) = []
  · have hnh : ∀ f ∈ fragments, ¬(f.kind = ConfigKind.Section ∧ f.value1 = S) := by
      intro f hf hcon
      have hmem : f ∈ fragments.filter
          (fun f => f.kind == ConfigKind.Section && f.value1 == S) :=
        List.mem_filter.mpr ⟨hf, by simp [hcon.1, hcon.2]⟩
      rw [hX] at hmem
      cases hmem
    have hspan := span_none_of_immediate fragments S hS (immediateB_of_no_header S fragments hnh)
    have hsg : spansGet (fragments_to_spans_of_sections fragments) S = [] := by
      rw [spansGet, hspan]
      rfl
    have hmig : migrate fragments [(S, MigSectionOrder.remove)] = (false, fragments) := by
      simp [migrate, actions_remove_def, hX]
    rw [hmig]
    refine ⟨rfl, ?_⟩
    intro i f hf
    have hi0 : iter_from_spans ([] : List (Nat × Nat)) = [] := rfl
    rw [hsg, hi0]
    simp [hf]
    rw [← List.get?_eq_getElem?]
    exact hf
  · have hXmap : ((fragments.filter (fun f => f.kind == ConfigKind.Section && f.value1 == S)).map
        (fun _ => S) : List Str) ≠ [] := by
      intro h0
      exact hX (List.map_eq_nil.mp h0)
    have hregsX : migrate_registrations fragments [(S, MigSectionOrder.remove)] =
        removeSectionRegs fragments (fragments_to_spans_of_sections fragments)
          ((fragments.filter (fun f => f.kind == ConfigKind.Section && f.value1 == S)).map
            (fun _ => S)) := by
      simp only [migrate_registrations, actions_remove_def]
      simp [renameKeyRegs, removeMoveKeyRegs, renameSectionRegs]
    obtain ⟨hunif, hmemf⟩ := removeSectionRegs_spec fragments
      (fragments_to_spans_of_sections fragments)
      ((fragments.filter (fun f => f.kind == ConfigKind.Section && f.value1 == S)).map
        (fun _ => S)) S
      (by
        intro s hs
        rcases List.mem_map.mp hs with ⟨g, -, rfl⟩
        rfl)
    have hmem2 := hmemf hXmap
    have hexist : ∃ x ∈ fragments, x.kind = ConfigKind.Section ∧ x.value1 = S := by
      obtain ⟨x, hxmem⟩ := List.exists_mem_of_ne_nil _ hX
      have hx2 := List.mem_filter.mp hxmem
      refine ⟨x, hx2.1, ?_⟩
      have hx3 := hx2.2
      simp only [Bool.and_eq_true, beq_iff_eq] at hx3
      exact hx3
    have hmig : (migrate fragments [(S, MigSectionOrder.remove)]).2 =
        ((enumF 0 fragments).map (fun p =>
          (reinjectGet (migrate_registrations fragments [(S, MigSectionOrder.remove)])
            p.1).getD [p.2])).foldr (· ++ ·) [] := by
      simp only [migrate, actions_remove_def]
      rw [if_neg (by simp; exact hexist)]
      have ha0 : addedKeys0 fragments (fragments_to_spans_of_sections fragments) [] = [] := rfl
      rw [ha0, rebuild_added_nil]
      simp
    have hpoint : ∀ p ∈ enumF 0 fragments,
        (reinjectGet (migrate_registrations fragments [(S, MigSectionOrder.remove)])
          p.1).getD [p.2] =
          [if (p.1 ∈ iter_from_spans (spansGet (fragments_to_spans_of_sections fragments) S) ∧
               (p.2.kind = ConfigKind.KeyValue ∨ p.2.kind = ConfigKind.Section))
           then comment_out p.2 else p.2] := by
      intro p hp
      obtain ⟨k, hk1, hk2⟩ := enumF_mem fragments 0 p hp
      have hget : fragments.get? p.1 = some p.2 := by
        rw [hk1]
        show fragments.get? (0 + k) = some p.2
        rw [Nat.zero_add]
        exact hk2
      rw [hregsX, reinjectGet_uniform (covVal fragments) _ _ hunif]
      by_cases hc : p.1 ∈ (removeSectionRegs fragments (fragments_to_spans_of_sections fragments)
          ((fragments.filter (fun f => f.kind == ConfigKind.Section && f.value1 == S)).map
            (fun _ => S))).map Prod.fst
      · rw [if_pos hc]
        obtain ⟨hcov, fr, hfr, hkind⟩ := (hmem2 p.1).mp hc
        have hfr2 : fr = p.2 := by
          rw [hget] at hfr
          injection hfr with h1
          exact h1.symm
        subst hfr2
        rw [if_pos ⟨hcov, hkind⟩]
        have hge : fragments[p.1]? = some p.2 := by
          rw [← List.get?_eq_getElem?]
          exact hget
        show (some (covVal fragments p.1)).getD [p.2] = [comment_out p.2]
        simp [covVal, hge]
      · rw [if_neg hc]
        have hnc : ¬(p.1 ∈ iter_from_spans
              (spansGet (fragments_to_spans_of_sections fragments) S) ∧
            (p.2.kind = ConfigKind.KeyValue ∨ p.2.kind = ConfigKind.Section)) := by
          intro hcon
          exact hc ((hmem2 p.1).mpr ⟨hcon.1, p.2, hget, hcon.2⟩)
        rw [if_neg hnc]
        rfl
    have hfinal : (migrate fragments [(S, MigSectionOrder.remove)]).2 =
        (enumF 0 fragments).map (fun p =>
          if (p.1 ∈ iter_from_spans (spansGet (fragments_to_spans_of_sections fragments) S) ∧
              (p.2.kind = ConfigKind.KeyValue ∨ p.2.kind = ConfigKind.Section))
          then comment_out p.2 else p.2) := by
      rw [hmig]
      exact concat_map_singleton _ _ _ hpoint
    refine ⟨?_, ?_⟩
    · rw [hfinal, List.length_map, enumF_length]
    · intro i f hf
      rw [hfinal, List.get?_map, enumF_get?, hf]
      simp only [Option.map_some']
      rw [Nat.zero_add]

/-- The parse of `"[all_target_mod]\nconnection_retry_count=3\n\n"`. -/
def fragsC5w : List ConfigurationFragment :=
  parse_configuration (str "[all_target_mod]\nconnection_retry_count=3\n\n")

/-- Witness for C5: removing `all_target_mod` comments out its
key-value line. -/
theorem remove_section_frame_witness :
    (migrate fragsC5w [(str "all_target_mod", MigSectionOrder.remove)]).2.get? 2 =
      some (comment_out ⟨str "connection_retry_count=3", ConfigKind.KeyValue,
        str "connection_retry_count", str "3"⟩) := by
  have h := (remove_section_frame fragsC5w (str "all_target_mod") (by decide)).2 2
    ⟨str "connection_retry_count=3", ConfigKind.KeyValue,
      str "connection_retry_count", str "3"⟩ (by decide)
  rw [h]
  rfl

/-- The parse of `"k=v\n\n\n"`: a key-value inside the implicit
empty-named section. -/
def fragsC5ce : List ConfigurationFragment := parse_configuration (str "k=v\n\n\n")

/-- C5 counterexample: removing the implicit empty-named section is a
no-op even though index 0 lies inside that section`s spans and holds a
KeyValue fragment; the claim says it should become a Comment. -/
theorem remove_implicit_section_noop :
    (0 ∈ iter_from_spans (spansGet (fragments_to_spans_of_sections fragsC5ce) [])) ∧
    (fragsC5ce.get? 0).map (fun f => f.kind) = some ConfigKind.KeyValue ∧
    migrate fragsC5ce [([], MigSectionOrder.remove)] = (false, fragsC5ce) ∧
    (migrate fragsC5ce [([], MigSectionOrder.remove)]).2.get? 0 = fragsC5ce.get? 0 ∧
    ¬ (fragsC5ce.get? 0).map (fun f => f.kind) = some ConfigKind.Comment := by
  decide

/-!
C6 support: duplicate-key counterexample data, the last-header function
`sectAt`, and structural facts about the span dictionary.
-/

/-- The parse of `"[a]\nk=1\nk=2\n\n"`: section `a` with a duplicated
key `k`. -/
def fragsC6ce : List ConfigurationFragment := parse_configuration (str "[a]\nk=1\nk=2\n\n")

/-- A migration renaming key `k` of section `a` to `k2`. -/
def mdefC6ce : MigrationDesc :=
  [(str "a", MigSectionOrder.keys [(str "k", MigKeyOrder.update none (some (str "k2")) none)])]

/-- C6 counterexample: with a duplicated key, each of the two matching
fragment indices is registered twice (once per derived action), and the
later registration at index 2 overwrites the earlier one with a
different replacement. -/
theorem duplicate_key_double_registration :
    ((migrate_registrations fragsC6ce mdefC6ce).map Prod.fst) = [2, 4, 2, 4] ∧
    ¬ ((migrate_registrations fragsC6ce mdefC6ce).map Prod.fst).Nodup ∧
    (migrate_registrations fragsC6ce mdefC6ce).get? 0 ≠
      (migrate_registrations fragsC6ce mdefC6ce).get? 2 := by
  decide

/-- `True` exactly for the section orders that are not an iterable of
steps: a whole-section removal, a plain key dictionary, or a single
section move. -/
def noStepsB : MigSectionOrder → Bool
  | MigSectionOrder.remove => true
  | MigSectionOrder.keys _ => true
  | MigSectionOrder.moveSection _ => true
  | MigSectionOrder.steps _ => false

/-- The name of the last Section fragment of a list (`''` when there is
none): the `section` variable of the scans of the source. -/
def sectFold (l : List ConfigurationFragment) : Str :=
  l.foldl (fun s f => if f.kind = ConfigKind.Section then f.value1 else s) []

/-- The section a fragment index belongs to: the name of the last
Section fragment at an index `<= i`. -/
def sectAt (fragments : List ConfigurationFragment) (i : Nat) : Str :=
  sectFold (fragments.take (i + 1))

/-- All spans of the span dictionary, in dictionary order. -/
def allSpans (m : List (Str × List (Nat × Nat))) : List (Nat × Nat) :=
  (m.map Prod.snd).foldr (· ++ ·) []

/-- All (name, span) pairs of the span dictionary, in dictionary order. -/
def allNamed (m : List (Str × List (Nat × Nat))) : List (Str × (Nat × Nat)) :=
  (m.map (fun e => e.2.map (fun sp => (e.1, sp)))).foldr (· ++ ·) []

/-- Two spans cover disjoint index ranges. -/
def spanDisj (s t : Nat × Nat) : Prop := s.2 ≤ t.1 ∨ t.2 ≤ s.1

theorem spanDisj_symm : Symmetric spanDisj := by
  intro s t h
  rcases h with h | h
  · exact Or.inr h
  · exact Or.inl h

theorem sectFold_concat (pre : List ConfigurationFragment) (f : ConfigurationFragment) :
    sectFold (pre ++ [f]) = if f.kind = ConfigKind.Section then f.value1 else sectFold pre := by
  rw [sectFold, List.foldl_append]
  rfl

theorem take_len_succ {α : Type} (pre : List α) (f : α) (rest : List α) :
    (pre ++ f :: rest).take (pre.length + 1) = pre ++ [f] := by
  induction pre with
  | nil => rfl
  | cons x t ih => simp [List.take, ih]

theorem allSpans_addSpan (m : List (Str × List (Nat × Nat))) (name : Str) (sp : Nat × Nat) :
    List.Perm (allSpans (addSpan m name sp)) (sp :: allSpans m) := by
  induction m with
  | nil =>
    show List.Perm (allSpans [(name, [sp])]) (sp :: allSpans [])
    show List.Perm ([sp] ++ []) [sp]
    simp
  | cons e rest ih =>
    by_cases hk : e.1 = name
    · rw [show addSpan (e :: rest) name sp = (e.1, e.2 ++ [sp]) :: rest by
        show (match e :: rest with
              | [] => [(name, [sp])]
              | (k, v) :: rest => if k = name then (k, v ++ [sp]) :: rest
                                  else (k, v) :: addSpan rest name sp) = _
        simp [hk]]
      show List.Perm ((e.2 ++ [sp]) ++ allSpans rest) (sp :: (e.2 ++ allSpans rest))
      refine List.Perm.trans (List.perm_append_comm.append_right _) ?_
      show List.Perm (([sp] ++ e.2) ++ allSpans rest) (sp :: (e.2 ++ allSpans rest))
      simp
    · rw [show addSpan (e :: rest) name sp = (e.1, e.2) :: addSpan rest name sp by
        show (match e :: rest with
              | [] => [(name, [sp])]
              | (k, v) :: rest => if k = name then (k, v ++ [sp]) :: rest
                                  else (k, v) :: addSpan rest name sp) = _
        simp [hk]]
      show List.Perm (e.2 ++ allSpans (addSpan rest name sp)) (sp :: (e.2 ++ allSpans rest))
      refine List.Perm.trans (List.Perm.append_left _ ih) ?_
      exact List.perm_middle

theorem allNamed_addSpan_mem (m : List (Str × List (Nat × Nat))) (name : Str)
    (sp : Nat × Nat) (p : Str × (Nat × Nat)) :
    p ∈ allNamed (addSpan m name sp) ↔ p = (name, sp) ∨ p ∈ allNamed m := by
  induction m with
  | nil =>
    show p ∈ [(name, sp)] ++ [] ↔ p = (name, sp) ∨ p ∈ ([] : List (Str × (Nat × Nat)))
    simp
  | cons e rest ih =>
    by_cases hk : e.1 = name
    · rw [show addSpan (e :: rest) name sp = (e.1, e.2 ++ [sp]) :: rest by
        show (match e :: rest with
              | [] => [(name, [sp])]
              | (k, v) :: rest => if k = name then (k, v ++ [sp]) :: rest
                                  else (k, v) :: addSpan rest name sp) = _
        simp [hk]]
      show p ∈ ((e.2 ++ [sp]).map (fun s => (e.1, s))) ++ allNamed rest ↔
        p = (name, sp) ∨ p ∈ (e.2.map (fun s => (e.1, s))) ++ allNamed rest
      subst hk
      constructor
      · intro hmem
        rcases List.mem_append.mp hmem with hin | hin
        · obtain ⟨s, hs, heq⟩ := List.mem_map.mp hin
          rcases List.mem_append.mp hs with hs2 | hs2
          · exact Or.inr (List.mem_append.mpr (Or.inl (List.mem_map.mpr ⟨s, hs2, heq⟩)))
          · refine Or.inl ?_
            rw [← heq, List.mem_singleton.mp hs2]
        · exact Or.inr (List.mem_append.mpr (Or.inr hin))
      · intro hmem
        rcases hmem with heq | hin
        · subst heq
          exact List.mem_append.mpr (Or.inl (List.mem_map.mpr
            ⟨sp, List.mem_append.mpr (Or.inr (List.mem_singleton.mpr rfl)), rfl⟩))
        · rcases List.mem_append.mp hin with h2 | h2
          · obtain ⟨s, hs, heq⟩ := List.mem_map.mp h2
            exact List.mem_append.mpr (Or.inl (List.mem_map.mpr
              ⟨s, List.mem_append.mpr (Or.inl hs), heq⟩))
          · exact List.mem_append.mpr (Or.inr h2)
    · rw [show addSpan (e :: rest) name sp = (e.1, e.2) :: addSpan rest name sp by
        show (match e :: rest with
              | [] => [(name, [sp])]
              | (k, v) :: rest => if k = name then (k, v ++ [sp]) :: rest
                                  else (k, v) :: addSpan rest name sp) = _
        simp [hk]]
      show p ∈ (e.2.map (fun s => (e.1, s))) ++ allNamed (addSpan rest name sp) ↔
        p = (name, sp) ∨ p ∈ (e.2.map (fun s => (e.1, s))) ++ allNamed rest
      simp only [List.mem_append, ih]
      exact or_left_comm

theorem mem_allSpans_iff (m : List (Str × List (Nat × Nat))) (sp : Nat × Nat) :
    sp ∈ allSpans m ↔ ∃ name, (name, sp) ∈ allNamed m := by
  induction m with
  | nil =>
    show sp ∈ ([] : List (Nat × Nat)) ↔ ∃ name, (name, sp) ∈ ([] : List (Str × (Nat × Nat)))
    simp
  | cons e rest ih =>
    show sp ∈ e.2 ++ allSpans rest ↔
      ∃ name, (name, sp) ∈ (e.2.map (fun s => (e.1, s))) ++ allNamed rest
    constructor
    · intro hmem
      rcases List.mem_append.mp hmem with h | h
      · exact ⟨e.1, List.mem_append.mpr (Or.inl (List.mem_map.mpr ⟨sp, h, rfl⟩))⟩
      · obtain ⟨name, hn⟩ := ih.mp h
        exact ⟨name, List.mem_append.mpr (Or.inr hn)⟩
    · rintro ⟨name, hn⟩
      rcases List.mem_append.mp hn with h | h
      · obtain ⟨s, hs, heq⟩ := List.mem_map.mp h
        injection heq with h1 h2
        subst h2
        exact List.mem_append.mpr (Or.inl hs)
      · exact List.mem_append.mpr (Or.inr (ih.mpr ⟨name, h⟩))

theorem nodup_concatAll {α : Type} : ∀ L : List (List α),
    (∀ l ∈ L, l.Nodup) → L.Pairwise List.Disjoint →
    (L.foldr (· ++ ·) []).Nodup := by
  intro L
  induction L with
  | nil => intro h1 h2; exact List.nodup_nil
  | cons y rest ih =>
    intro h1 h2
    show (y ++ rest.foldr (· ++ ·) []).Nodup
    rw [List.nodup_append]
    refine ⟨h1 y (by simp), ih (fun l hl => h1 l (by simp [hl]))
      (List.Pairwise.sublist (by simp) h2), ?_⟩
    intro a hay hacon
    obtain ⟨l, hl, hal⟩ := (mem_concatAll rest a).mp hacon
    exact (List.pairwise_cons.mp h2).1 l hl hay hal

theorem assocGet_mem {α : Type} [DecidableEq α] {β : Type} :
    ∀ (m : List (α × β)) (k : α) (v : β), assocGet m k = some v → (k, v) ∈ m := by
  intro m
  induction m with
  | nil => intro k v h; cases h
  | cons e rest ih =>
    intro k v h
    rw [show assocGet (e :: rest) k = if e.1 = k then some e.2 else assocGet rest k from rfl] at h
    by_cases hk : e.1 = k
    · rw [if_pos hk] at h
      injection h with h1
      subst h1
      subst hk
      exact List.mem_cons_self _ _
    · rw [if_neg hk] at h
      exact List.mem_cons_of_mem _ (ih k v h)

theorem mem_spansGet_named (m : List (Str × List (Nat × Nat))) (R : Str) (sp : Nat × Nat) :
    sp ∈ spansGet m R → (R, sp) ∈ allNamed m := by
  intro h
  rw [spansGet] at h
  cases hga : assocGet m R with
  | none => rw [hga] at h; cases h
  | some v =>
    rw [hga] at h
    have hmem : (R, v) ∈ m := assocGet_mem m R v hga
    show (R, sp) ∈ allNamed m
    clear hga
    induction m with
    | nil => cases hmem
    | cons e rest ih =>
      show (R, sp) ∈ (e.2.map (fun s => (e.1, s))) ++ allNamed rest
      rcases List.mem_cons.mp hmem with heq | hmem2
      · rw [List.mem_append]
        refine Or.inl (List.mem_map.mpr ⟨sp, ?_, ?_⟩)
        · rw [show e.2 = v by rw [← heq]]
          exact h
        · rw [show e.1 = R by rw [← heq]]
      · exact List.mem_append.mpr (Or.inr (ih hmem2))

theorem spansGet_sublist (m : List (Str × List (Nat × Nat))) (R : Str) :
    List.Sublist (spansGet m R) (allSpans m) := by
  rw [spansGet]
  cases hga : assocGet m R with
  | none => exact List.nil_sublist _
  | some v =>
    show List.Sublist v (allSpans m)
    induction m with
    | nil => cases hga
    | cons e rest ih =>
      rw [show assocGet (e :: rest) R = if e.1 = R then some e.2 else assocGet rest R
        from rfl] at hga
      show List.Sublist v (e.2 ++ allSpans rest)
      by_cases hk : e.1 = R
      · rw [if_pos hk] at hga
        injection hga with h1
        subst h1
        exact List.sublist_append_left _ _
      · rw [if_neg hk] at hga
        exact List.Sublist.trans (ih hga) (List.sublist_append_right _ _)

theorem filterMap_fst_sublist {α : Type} (l : List Nat) (f : Nat → Option (Nat × α))
    (h : ∀ i p, f i = some p → p.1 = i) :
    List.Sublist ((l.filterMap f).map Prod.fst) l := by
  induction l with
  | nil => exact List.nil_sublist _
  | cons a rest ih =>
    cases hf : f a with
    | none =>
      rw [List.filterMap_cons, hf]
      exact List.Sublist.cons _ ih
    | some p =>
      rw [List.filterMap_cons, hf]
      show List.Sublist (p.1 :: (rest.filterMap f).map Prod.fst) (a :: rest)
      rw [h a p hf]
      exact List.Sublist.cons₂ _ ih

theorem map_fst_concat {α : Type} : ∀ L : List (List (Nat × α)),
    ((L.foldr (· ++ ·) []).map Prod.fst) = (L.map (fun l => l.map Prod.fst)).foldr (· ++ ·) [] := by
  intro L
  induction L with
  | nil => rfl
  | cons y rest ih => simp only [List.foldr_cons, List.map_append, ih, List.map_cons]

theorem nodup_append3 {α : Type} {A B C : List α} (hA : A.Nodup) (hB : B.Nodup) (hC : C.Nodup)
    (hAB : ∀ x ∈ A, x ∉ B) (hAC : ∀ x ∈ A, x ∉ C) (hBC : ∀ x ∈ B, x ∉ C) :
    (A ++ B ++ C).Nodup := by
  rw [List.append_assoc, List.nodup_append]
  refine ⟨hA, ?_, ?_⟩
  · rw [List.nodup_append]
    exact ⟨hB, hC, hBC⟩
  · intro a ha hcon
    rcases List.mem_append.mp hcon with h | h
    · exact hAB a ha h
    · exact hAC a ha h

/-- Invariant of the scan of `fragments_to_spans_of_sections`: the
running index, the current section name (the last header seen), the fact
that every index from `start` on belongs to the current section, and,
for every recorded span, that it is nonempty, closed below the current
`start`, and covers only indices of the section it is recorded under;
recorded spans are pairwise disjoint. -/
theorem span_fold_inv (fragments : List ConfigurationFragment) :
    ∀ (l pre : List ConfigurationFragment) (acc : SpanAcc),
      fragments = pre ++ l →
      acc.i = pre.length →
      acc.start ≤ pre.length →
      acc.sect = sectFold pre →
      (∀ j, acc.start ≤ j → j < pre.length → sectAt fragments j = acc.sect) →
      (∀ p ∈ allNamed acc.spans, p.2.1 < p.2.2 ∧ p.2.2 ≤ acc.start ∧
        ∀ j, p.2.1 ≤ j → j < p.2.2 → sectAt fragments j = p.1) →
      List.Pairwise spanDisj (allSpans acc.spans) →
      ((l.foldl spanStep acc).i = fragments.length ∧
       (l.foldl spanStep acc).start ≤ fragments.length ∧
       (l.foldl spanStep acc).sect = sectFold fragments ∧
       (∀ j, (l.foldl spanStep acc).start ≤ j → j < fragments.length →
         sectAt fragments j = (l.foldl spanStep acc).sect) ∧
       (∀ p ∈ allNamed (l.foldl spanStep acc).spans, p.2.1 < p.2.2 ∧
         p.2.2 ≤ (l.foldl spanStep acc).start ∧
         ∀ j, p.2.1 ≤ j → j < p.2.2 → sectAt fragments j = p.1) ∧
       List.Pairwise spanDisj (allSpans (l.foldl spanStep acc).spans)) := by
  intro l
  induction l with
  | nil =>
    intro pre acc hsplit h1 h2 h3 h4 h5 h6
    rw [List.append_nil] at hsplit
    subst hsplit
    exact ⟨h1, h2, h3, h4, h5, h6⟩
  | cons f rest ih =>
    intro pre acc hsplit h1 h2 h3 h4 h5 h6
    show ((rest.foldl spanStep (spanStep acc f)).i = fragments.length ∧ _)
    by_cases hk : f.kind = ConfigKind.Section
    · have hstep : spanStep acc f = ⟨acc.i, f.value1,
        if acc.start < acc.i - 1 then addSpan acc.spans acc.sect (acc.start, acc.i - 1)
        else acc.spans, acc.i + 1⟩ := by
        simp [spanStep, hk]
      refine ih (pre ++ [f]) (spanStep acc f) ?_ ?_ ?_ ?_ ?_ ?_ ?_
      · rw [hsplit]
        simp
      · rw [hstep]
        show acc.i + 1 = (pre ++ [f]).length
        simp [h1]
      · rw [hstep]
        show acc.i ≤ (pre ++ [f]).length
        simp [h1]
      · rw [hstep]
        show f.value1 = sectFold (pre ++ [f])
        rw [sectFold_concat, if_pos hk]
      · intro j hj1 hj2
        rw [hstep] at hj1 ⊢
        show sectAt fragments j = f.value1
        have hj1b : acc.i ≤ j := hj1
        have hlen : j < pre.length + 1 := by
          have := hj2
          simp at this
          omega
        have hj : j = pre.length := by omega
        subst hj
        rw [sectAt, hsplit, take_len_succ, sectFold_concat, if_pos hk]
      · intro p hp
        rw [hstep] at hp
        by_cases hlt : acc.start < acc.i - 1
        · rw [if_pos hlt] at hp
          show p.2.1 < p.2.2 ∧ p.2.2 ≤ (spanStep acc f).start ∧ _
          rw [hstep]
          show p.2.1 < p.2.2 ∧ p.2.2 ≤ acc.i ∧ _
          rcases (allNamed_addSpan_mem acc.spans acc.sect (acc.start, acc.i - 1) p).mp hp
            with heq | hold
          · subst heq
            show acc.start < acc.i - 1 ∧ acc.i - 1 ≤ acc.i ∧
              ∀ j, acc.start ≤ j → j < acc.i - 1 → sectAt fragments j = acc.sect
            refine ⟨hlt, by omega, ?_⟩
            intro j hja hjb
            exact h4 j hja (by omega)
          · obtain ⟨ha, hb, hc⟩ := h5 p hold
            exact ⟨ha, by omega, hc⟩
        · rw [if_neg hlt] at hp
          show p.2.1 < p.2.2 ∧ p.2.2 ≤ (spanStep acc f).start ∧ _
          rw [hstep]
          show p.2.1 < p.2.2 ∧ p.2.2 ≤ acc.i ∧ _
          obtain ⟨ha, hb, hc⟩ := h5 p hp
          exact ⟨ha, by omega, hc⟩
      · rw [hstep]
        show List.Pairwise spanDisj (allSpans (if acc.start < acc.i - 1 then
          addSpan acc.spans acc.sect (acc.start, acc.i - 1) else acc.spans))
        by_cases hlt : acc.start < acc.i - 1
        · rw [if_pos hlt]
          refine (List.Perm.pairwise_iff (fun hxy => spanDisj_symm hxy)
            (allSpans_addSpan acc.spans acc.sect (acc.start, acc.i - 1))).mpr ?_
          refine List.pairwise_cons.mpr ⟨?_, h6⟩
          intro q hq
          obtain ⟨name, hname⟩ := (mem_allSpans_iff acc.spans q).mp hq
          obtain ⟨-, hb, -⟩ := h5 (name, q) hname
          exact Or.inr hb
        · rw [if_neg hlt]
          exact h6
    · have hstep : spanStep acc f = { acc with i := acc.i + 1 } := by
        simp [spanStep, hk]
      refine ih (pre ++ [f]) (spanStep acc f) ?_ ?_ ?_ ?_ ?_ ?_ ?_
      · rw [hsplit]
        simp
      · rw [hstep]
        show acc.i + 1 = (pre ++ [f]).length
        simp [h1]
      · rw [hstep]
        show acc.start ≤ (pre ++ [f]).length
        simp
        omega
      · rw [hstep]
        show acc.sect = sectFold (pre ++ [f])
        rw [sectFold_concat, if_neg hk]
        exact h3
      · intro j hj1 hj2
        rw [hstep] at hj1 ⊢
        show sectAt fragments j = acc.sect
        have hj1b : acc.start ≤ j := hj1
        have hlen : j < pre.length + 1 := by
          have := hj2
          simp at this
          omega
        by_cases hj : j < pre.length
        · exact h4 j hj1b hj
        · have hjeq : j = pre.length := by omega
          subst hjeq
          rw [sectAt, hsplit, take_len_succ, sectFold_concat, if_neg hk]
          exact h3.symm
      · intro p hp
        rw [hstep] at hp
        show p.2.1 < p.2.2 ∧ p.2.2 ≤ (spanStep acc f).start ∧ _
        rw [hstep]
        show p.2.1 < p.2.2 ∧ p.2.2 ≤ acc.start ∧ _
        exact h5 p hp
      · rw [hstep]
        exact h6

/-- Characterization of the final span dictionary: every recorded span
is nonempty and covers only indices whose last preceding header names
the section it is recorded under, and all recorded spans are pairwise
disjoint. -/
theorem spans_char (fragments : List ConfigurationFragment) :
    (∀ p ∈ allNamed (fragments_to_spans_of_sections fragments),
      p.2.1 < p.2.2 ∧ ∀ j, p.2.1 ≤ j → j < p.2.2 → sectAt fragments j = p.1) ∧
    List.Pairwise spanDisj (allSpans (fragments_to_spans_of_sections fragments)) := by
  obtain ⟨g1, g2, g3, g4, g5, g6⟩ := span_fold_inv fragments fragments [] ⟨0, [], [], 0⟩
    rfl rfl (by simp) rfl (by intro j h1 h2; rw [List.length_nil] at h2; omega)
    (by intro p hp; cases hp) (by exact List.Pairwise.nil)
  rw [fragments_to_spans_of_sections]
  show (∀ p ∈ allNamed (if (fragments.foldl spanStep ⟨0, [], [], 0⟩).start <
      (if fragments.length = 0 then 0 else fragments.length - 1) - 1 then
      addSpan (fragments.foldl spanStep ⟨0, [], [], 0⟩).spans
        (fragments.foldl spanStep ⟨0, [], [], 0⟩).sect
        ((fragments.foldl spanStep ⟨0, [], [], 0⟩).start,
         (if fragments.length = 0 then 0 else fragments.length - 1) - 1)
      else (fragments.foldl spanStep ⟨0, [], [], 0⟩).spans), _) ∧ _
  by_cases hlt : (fragments.foldl spanStep ⟨0, [], [], 0⟩).start <
      (if fragments.length = 0 then 0 else fragments.length - 1) - 1
  · rw [if_pos hlt]
    constructor
    · intro p hp
      rcases (allNamed_addSpan_mem _ _ _ p).mp hp with heq | hold
      · subst heq
        refine ⟨hlt, ?_⟩
        intro j hja hjb
        have hja2 : (fragments.foldl spanStep ⟨0, [], [], 0⟩).start ≤ j := hja
        have hjb2 : j < (if fragments.length = 0 then 0 else fragments.length - 1) - 1 := hjb
        refine g4 j hja2 ?_
        by_cases h0 : fragments.length = 0
        · rw [h0] at hjb2
          have h00 : (if (0 : Nat) = 0 then (0 : Nat) else 0 - 1) = 0 := rfl
          rw [h00] at hjb2
          omega
        · rw [if_neg h0] at hjb2
          omega
      · obtain ⟨ha, -, hc⟩ := g5 p hold
        exact ⟨ha, hc⟩
    · refine (List.Perm.pairwise_iff (fun hxy => spanDisj_symm hxy)
        (allSpans_addSpan _ _ _)).mpr ?_
      refine List.pairwise_cons.mpr ⟨?_, g6⟩
      intro q hq
      obtain ⟨name, hname⟩ := (mem_allSpans_iff _ q).mp hq
      obtain ⟨-, hb, -⟩ := g5 (name, q) hname
      exact Or.inr hb
  · rw [if_neg hlt]
    constructor
    · intro p hp
      obtain ⟨ha, -, hc⟩ := g5 p hp
      exact ⟨ha, hc⟩
    · exact g6

theorem mem_iter_from_spans (spans : List (Nat × Nat)) (i : Nat) :
    i ∈ iter_from_spans spans ↔ ∃ sp ∈ spans, sp.1 ≤ i ∧ i < sp.1 + (sp.2 - sp.1) := by
  rw [iter_from_spans]
  constructor
  · intro h
    obtain ⟨l, hl, hil⟩ := (mem_concatAll _ i).mp h
    obtain ⟨sp, hsp, rfl⟩ := List.mem_map.mp hl
    have h2 := List.mem_range'_1.mp hil
    exact ⟨sp, hsp, h2.1, h2.2⟩
  · rintro ⟨sp, hsp, h1, h2⟩
    refine (mem_concatAll _ i).mpr ⟨_, List.mem_map.mpr ⟨sp, hsp, rfl⟩, ?_⟩
    exact List.mem_range'_1.mpr ⟨h1, h2⟩

/-- An index inside one of the spans recorded under a section name has
that name as its last preceding header. -/
theorem sectAt_of_mem_iter (fragments : List ConfigurationFragment) (R : Str) (i : Nat) :
    i ∈ iter_from_spans (spansGet (fragments_to_spans_of_sections fragments) R) →
    sectAt fragments i = R := by
  intro h
  obtain ⟨sp, hsp, h1, h2⟩ := (mem_iter_from_spans _ i).mp h
  have hmem := mem_spansGet_named _ R sp hsp
  obtain ⟨hlt, hcov⟩ := (spans_char fragments).1 (R, sp) hmem
  have hlt2 : sp.1 < sp.2 := hlt
  refine hcov i h1 ?_
  show i < sp.2
  omega

/-- The covered indices of one section name are pairwise distinct. -/
theorem nodup_iter_spansGet (fragments : List ConfigurationFragment) (R : Str) :
    (iter_from_spans (spansGet (fragments_to_spans_of_sections fragments) R)).Nodup := by
  rw [iter_from_spans]
  refine nodup_concatAll _ ?_ ?_
  · intro l hl
    obtain ⟨sp, hsp, rfl⟩ := List.mem_map.mp hl
    exact List.nodup_range' _ _
  · have hpw : List.Pairwise spanDisj
        (spansGet (fragments_to_spans_of_sections fragments) R) :=
      List.Pairwise.sublist (spansGet_sublist _ R) (spans_char fragments).2
    refine (List.pairwise_map).mpr ?_
    refine hpw.imp ?_
    intro s t hst
    intro a has hat
    have h1 := List.mem_range'_1.mp has
    have h2 := List.mem_range'_1.mp hat
    rcases hst with h | h
    · omega
    · omega

/-- The indices registered by one rename-key, remove-key or move-key
action: key fragments with the given key inside the given section. -/
def kidx (fragments : List ConfigurationFragment)
    (spans : List (Str × List (Nat × Nat))) (S k : Str) : List Nat :=
  (iter_key_fragment fragments spans S k).map Prod.fst

/-- The indices registered for one removed section. -/
def cidx (fragments : List ConfigurationFragment)
    (spans : List (Str × List (Nat × Nat))) (S : Str) : List Nat :=
  (covChunk fragments spans S).map Prod.fst

theorem kidx_mem (fragments : List ConfigurationFragment)
    (spans : List (Str × List (Nat × Nat))) (S k : Str) (i : Nat) :
    i ∈ kidx fragments spans S k ↔
      i ∈ iter_from_spans (spansGet spans S) ∧
      ∃ fr, fragments.get? i = some fr ∧ fr.kind = ConfigKind.KeyValue ∧ k = fr.value1 := by
  rw [kidx, iter_key_fragment]
  constructor
  · intro h
    obtain ⟨p, hp, hpi⟩ := List.mem_map.mp h
    obtain ⟨a, ha, hfa⟩ := List.mem_filterMap.mp hp
    cases hg : fragments.get? a with
    | none => rw [hg] at hfa; cases hfa
    | some fr =>
      rw [hg] at hfa
      have hfa2 : (if fr.kind = ConfigKind.KeyValue ∧ k = fr.value1
          then some (a, fr) else none) = some p := hfa
      by_cases hc : fr.kind = ConfigKind.KeyValue ∧ k = fr.value1
      · rw [if_pos hc] at hfa2
        have hpa : p = (a, fr) := by injection hfa2 with h1; exact h1.symm
        subst hpa
        have hai : a = i := hpi
        subst hai
        exact ⟨ha, fr, hg, hc.1, hc.2⟩
      · rw [if_neg hc] at hfa2
        cases hfa2
  · rintro ⟨hmem, fr, hget, hkind, hkey⟩
    refine List.mem_map.mpr ⟨(i, fr), List.mem_filterMap.mpr ⟨i, hmem, ?_⟩, rfl⟩
    rw [hget]
    show (if fr.kind = ConfigKind.KeyValue ∧ k = fr.value1
      then some (i, fr) else none) = some (i, fr)
    rw [if_pos ⟨hkind, hkey⟩]

theorem kidx_sublist (fragments : List ConfigurationFragment)
    (spans : List (Str × List (Nat × Nat))) (S k : Str) :
    List.Sublist (kidx fragments spans S k) (iter_from_spans (spansGet spans S)) := by
  rw [kidx, iter_key_fragment]
  refine filterMap_fst_sublist _ _ ?_
  intro i p hp
  cases hg : fragments.get? i with
  | none => rw [hg] at hp; cases hp
  | some fr =>
    rw [hg] at hp
    have hp2 : (if fr.kind = ConfigKind.KeyValue ∧ k = fr.value1
        then some (i, fr) else none) = some p := hp
    by_cases hc : fr.kind = ConfigKind.KeyValue ∧ k = fr.value1
    · rw [if_pos hc] at hp2
      injection hp2 with h1
      rw [← h1]
    · rw [if_neg hc] at hp2
      cases hp2

theorem cidx_mem (fragments : List ConfigurationFragment)
    (spans : List (Str × List (Nat × Nat))) (S : Str) (i : Nat) :
    i ∈ cidx fragments spans S ↔
      i ∈ iter_from_spans (spansGet spans S) ∧
      ∃ fr, fragments.get? i = some fr ∧
        (fr.kind = ConfigKind.KeyValue ∨ fr.kind = ConfigKind.Section) := by
  rw [cidx]
  constructor
  · intro h
    obtain ⟨p, hp, hpi⟩ := List.mem_map.mp h
    obtain ⟨h1, fr, h2, h3, h4⟩ := (covChunk_mem fragments spans S p).mp hp
    subst hpi
    exact ⟨h1, fr, h2, h3⟩
  · rintro ⟨hmem, fr, hget, hkind⟩
    exact List.mem_map.mpr ⟨(i, [comment_out fr]),
      (covChunk_mem fragments spans S (i, [comment_out fr])).mpr
        ⟨hmem, fr, hget, hkind, rfl⟩, rfl⟩

theorem cidx_sublist (fragments : List ConfigurationFragment)
    (spans : List (Str × List (Nat × Nat))) (S : Str) :
    List.Sublist (cidx fragments spans S) (iter_from_spans (spansGet spans S)) := by
  rw [cidx, covChunk]
  refine filterMap_fst_sublist _ _ ?_
  intro i p hp
  cases hg : fragments.get? i with
  | none => rw [hg] at hp; cases hp
  | some fr =>
    rw [hg] at hp
    have hp2 : (if fr.kind = ConfigKind.KeyValue ∨ fr.kind = ConfigKind.Section
        then some (i, [comment_out fr]) else none) = some p := hp
    by_cases hc : fr.kind = ConfigKind.KeyValue ∨ fr.kind = ConfigKind.Section
    · rw [if_pos hc] at hp2
      injection hp2 with h1
      rw [← h1]
    · rw [if_neg hc] at hp2
      cases hp2

theorem kidx_nodup (fragments : List ConfigurationFragment) (S k : Str) :
    (kidx fragments (fragments_to_spans_of_sections fragments) S k).Nodup :=
  (nodup_iter_spansGet fragments S).sublist
    (kidx_sublist fragments (fragments_to_spans_of_sections fragments) S k)

theorem cidx_nodup (fragments : List ConfigurationFragment) (S : Str) :
    (cidx fragments (fragments_to_spans_of_sections fragments) S).Nodup :=
  (nodup_iter_spansGet fragments S).sublist
    (cidx_sublist fragments (fragments_to_spans_of_sections fragments) S)

theorem mem_chunks {α : Type} (g : α → List Nat) (xs : List α) (i : Nat) :
    i ∈ (xs.map g).foldr (· ++ ·) [] ↔ ∃ x ∈ xs, i ∈ g x := by
  rw [mem_concatAll]
  constructor
  · rintro ⟨l, hl, hil⟩
    obtain ⟨x, hx, rfl⟩ := List.mem_map.mp hl
    exact ⟨x, hx, hil⟩
  · rintro ⟨x, hx, hil⟩
    exact ⟨g x, List.mem_map.mpr ⟨x, hx, rfl⟩, hil⟩

theorem nodup_keychunks (fragments : List ConfigurationFragment) (ks : List (Str × Str))
    (hnd : (ks.map Prod.snd).Nodup) :
    ((ks.map (fun e =>
      kidx fragments (fragments_to_spans_of_sections fragments) e.1 e.2)).foldr
      (· ++ ·) []).Nodup := by
  refine nodup_concatAll _ ?_ ?_
  · intro l hl
    obtain ⟨e, he, rfl⟩ := List.mem_map.mp hl
    exact kidx_nodup fragments e.1 e.2
  · refine List.pairwise_map.mpr ?_
    have hpw : List.Pairwise (fun a b : Str × Str => a.2 ≠ b.2) ks :=
      (List.pairwise_map).mp hnd
    refine hpw.imp ?_
    intro a b hab
    intro i hia hib
    obtain ⟨-, fr, hget, -, hkey⟩ :=
      (kidx_mem fragments (fragments_to_spans_of_sections fragments) a.1 a.2 i).mp hia
    obtain ⟨-, fr2, hget2, -, hkey2⟩ :=
      (kidx_mem fragments (fragments_to_spans_of_sections fragments) b.1 b.2 i).mp hib
    rw [hget] at hget2
    injection hget2 with h1
    subst h1
    exact hab (hkey.trans hkey2.symm)

theorem nodup_secchunks (fragments : List ConfigurationFragment) (rems : List Str)
    (hnd : rems.Nodup) :
    ((rems.map (fun S =>
      cidx fragments (fragments_to_spans_of_sections fragments) S)).foldr
      (· ++ ·) []).Nodup := by
  refine nodup_concatAll _ ?_ ?_
  · intro l hl
    obtain ⟨S, hS, rfl⟩ := List.mem_map.mp hl
    exact cidx_nodup fragments S
  · refine List.pairwise_map.mpr ?_
    refine hnd.imp ?_
    intro a b hab
    intro i hia hib
    obtain ⟨hit, -⟩ :=
      (cidx_mem fragments (fragments_to_spans_of_sections fragments) a i).mp hia
    obtain ⟨hit2, -⟩ :=
      (cidx_mem fragments (fragments_to_spans_of_sections fragments) b i).mp hib
    exact hab ((sectAt_of_mem_iter fragments a i hit).symm.trans
      (sectAt_of_mem_iter fragments b i hit2))

/-- Occurrence count with propositional equality, used to transfer
duplicate-freedom through the scan. -/
def cnt {α : Type} [DecidableEq α] (k : α) : List α → Nat
  | [] => 0
  | x :: rest => (if x = k then 1 else 0) + cnt k rest

theorem cnt_append {α : Type} [DecidableEq α] (k : α) :
    ∀ l1 l2 : List α, cnt k (l1 ++ l2) = cnt k l1 + cnt k l2 := by
  intro l1
  induction l1 with
  | nil => intro l2; simp [cnt]
  | cons x rest ih =>
    intro l2
    show (if x = k then 1 else 0) + cnt k (rest ++ l2) =
      ((if x = k then 1 else 0) + cnt k rest) + cnt k l2
    rw [ih]
    omega

theorem cnt_eq_zero_iff {α : Type} [DecidableEq α] (k : α) :
    ∀ l : List α, cnt k l = 0 ↔ k ∉ l := by
  intro l
  induction l with
  | nil => simp [cnt]
  | cons x rest ih =>
    show (if x = k then 1 else 0) + cnt k rest = 0 ↔ _
    constructor
    · intro h
      intro hmem
      rcases List.mem_cons.mp hmem with heq | hmem2
      · rw [if_pos heq.symm] at h
        omega
      · have : cnt k rest = 0 := by omega
        exact ih.mp this hmem2
    · intro h
      have hx : ¬ x = k := fun hc => h (by rw [hc]; exact List.mem_cons_self _ _)
      rw [if_neg hx]
      have : k ∉ rest := fun hc => h (List.mem_cons_of_mem _ hc)
      rw [ih.mpr this]

theorem nodup_iff_cnt {α : Type} [DecidableEq α] :
    ∀ l : List α, l.Nodup ↔ ∀ a, cnt a l ≤ 1 := by
  intro l
  induction l with
  | nil => simp [cnt]
  | cons x rest ih =>
    rw [List.nodup_cons]
    constructor
    · rintro ⟨hx, hrest⟩ a
      show (if x = a then 1 else 0) + cnt a rest ≤ 1
      by_cases hxa : x = a
      · rw [if_pos hxa]
        subst hxa
        rw [(cnt_eq_zero_iff x rest).mpr hx]
      · rw [if_neg hxa]
        have := ih.mp hrest a
        omega
    · intro h
      constructor
      · rw [← cnt_eq_zero_iff]
        have hx := h x
        rw [show cnt x (x :: rest) = 1 + cnt x rest from by
          show (if x = x then 1 else 0) + cnt x rest = _
          rw [if_pos rfl]] at hx
        omega
      · refine ih.mpr ?_
        intro a
        have ha := h a
        have hb : cnt a (x :: rest) = (if x = a then 1 else 0) + cnt a rest := rfl
        rw [hb] at ha
        omega

/-- The keys consumed by all key-level actions of an action state, in
the order the rewriter reads them. -/
def keysOf (st : ActionState) : List Str :=
  st.renamed_keys.map (fun e => e.2.1) ++
    (st.removed_keys.map (fun e => e.2) ++ st.moved_keys.map (fun e => e.2.1))

theorem stepsFold_fields (l : List MigStep) : ∀ st : ActionState,
    (stepsFold st l).renamed_keys = st.renamed_keys ∧
    (stepsFold st l).removed_keys = st.removed_keys ∧
    (stepsFold st l).moved_keys = st.moved_keys ∧
    (stepsFold st l).removed_sections = st.removed_sections := by
  induction l with
  | nil => intro st; exact ⟨rfl, rfl, rfl, rfl⟩
  | cons o rest ih =>
    intro st
    cases o with
    | move name =>
      exact ih { st with renamed_sections := st.renamed_sections ++ [(st.sect, name)],
                          sect := name }
    | keys d => exact ih { st with migration_key_desc := some d }

/-- One scan step appends at most the current fragment`s key to the
key-action lists, and at most the current header name to the
removed-sections list. -/
theorem actionsStep_counts (migration_def : MigrationDesc) (st : ActionState)
    (f : ConfigurationFragment) (k S : Str) :
    cnt k (keysOf (actionsStep migration_def st f)) ≤
      cnt k (keysOf st) +
        cnt k (if f.kind = ConfigKind.KeyValue then [f.value1] else []) ∧
    cnt S ((actionsStep migration_def st f).removed_sections) ≤
      cnt S st.removed_sections +
        cnt S (if f.kind = ConfigKind.Section then [f.value1] else []) := by
  by_cases hkv : f.kind = ConfigKind.KeyValue
  · have hns : ¬ f.kind = ConfigKind.Section := by
      rw [hkv]
      intro h
      cases h
    rw [if_pos hkv, if_neg hns]
    cases hmk : st.migration_key_desc with
    | none =>
      have hstep : actionsStep migration_def st f = st := by
        simp [actionsStep, hkv, hmk]
      rw [hstep]
      constructor
      · omega
      · simp [cnt]
    | some d =>
      by_cases hd : d = []
      · have hstep : actionsStep migration_def st f = st := by
          simp [actionsStep, hkv, hmk, hd]
        rw [hstep]
        constructor
        · omega
        · simp [cnt]
      · cases hga : assocGet d f.value1 with
        | none =>
          have hstep : actionsStep migration_def st f = st := by
            simp [actionsStep, hkv, hmk, hd, hga]
          rw [hstep]
          constructor
          · omega
          · simp [cnt]
        | some ko =>
          cases ko with
          | remove =>
            have hstep : actionsStep migration_def st f =
                { st with removed_keys := st.removed_keys ++ [(st.sect, f.value1)] } := by
              simp [actionsStep, hkv, hmk, hd, hga]
            rw [hstep]
            constructor
            · simp [keysOf, cnt_append, cnt]
              omega
            · simp [cnt]
          | update os ok ov =>
            by_cases hts : (updateCall os ok ov st.sect f.value1 f.value2).1 = st.sect
            · have hstep : actionsStep migration_def st f =
                  { st with renamed_keys := st.renamed_keys ++
                    [(st.original_section, f.value1,
                      (updateCall os ok ov st.sect f.value1 f.value2).2.1,
                      (updateCall os ok ov st.sect f.value1 f.value2).2.2)] } := by
                simp [actionsStep, hkv, hmk, hd, hga, hts]
              rw [hstep]
              constructor
              · simp [keysOf, cnt_append, cnt]
                omega
              · simp [cnt]
            · have hstep : actionsStep migration_def st f =
                  { st with moved_keys := st.moved_keys ++
                    [(st.original_section, f.value1,
                      (updateCall os ok ov st.sect f.value1 f.value2).1,
                      (updateCall os ok ov st.sect f.value1 f.value2).2.1,
                      (updateCall os ok ov st.sect f.value1 f.value2).2.2)] } := by
                simp [actionsStep, hkv, hmk, hd, hga, hts]
              rw [hstep]
              constructor
              · simp [keysOf, cnt_append, cnt]
                omega
              · simp [cnt]
  · by_cases hsec : f.kind = ConfigKind.Section
    · rw [if_neg hkv, if_pos hsec]
      cases hga : assocGet migration_def f.value1 with
      | none =>
        have hstep : actionsStep migration_def st f =
            { st with migration_key_desc := none, sect := f.value1,
                      original_section := f.value1 } := by
          simp [actionsStep, hkv, hsec, hga]
        rw [hstep]
        constructor
        · simp [keysOf]
        · show cnt S st.removed_sections ≤
            cnt S st.removed_sections + cnt S ([f.value1] : List Str)
          omega
      | some so =>
        cases so with
        | remove =>
          have hstep : actionsStep migration_def st f =
              { st with migration_key_desc := none, sect := f.value1,
                        original_section := f.value1,
                        removed_sections := st.removed_sections ++ [f.value1] } := by
            simp [actionsStep, hkv, hsec, hga]
          rw [hstep]
          constructor
          · simp [keysOf]
          · show cnt S (st.removed_sections ++ [f.value1]) ≤
              cnt S st.removed_sections + cnt S ([f.value1] : List Str)
            rw [cnt_append]
        | moveSection name =>
          have hstep : actionsStep migration_def st f =
              { st with migration_key_desc := none, sect := f.value1,
                        original_section := f.value1,
                        renamed_sections := st.renamed_sections ++ [(f.value1, name)] } := by
            simp [actionsStep, hkv, hsec, hga]
          rw [hstep]
          constructor
          · simp [keysOf]
          · show cnt S st.removed_sections ≤
              cnt S st.removed_sections + cnt S ([f.value1] : List Str)
            omega
        | keys d =>
          have hstep : actionsStep migration_def st f =
              { st with migration_key_desc := some d, sect := f.value1,
                        original_section := f.value1 } := by
            simp [actionsStep, hkv, hsec, hga]
          rw [hstep]
          constructor
          · simp [keysOf]
          · show cnt S st.removed_sections ≤
              cnt S st.removed_sections + cnt S ([f.value1] : List Str)
            omega
        | steps lsteps =>
          have hstep : actionsStep migration_def st f =
              stepsFold { st with migration_key_desc := none, sect := f.value1,
                                  original_section := f.value1 } lsteps := by
            simp [actionsStep, hkv, hsec, hga]
          rw [hstep]
          obtain ⟨h1, h2, h3, h4⟩ := stepsFold_fields lsteps
            { st with migration_key_desc := none, sect := f.value1,
                      original_section := f.value1 }
          constructor
          · rw [keysOf, h1, h2, h3]
            show cnt k (keysOf st) ≤ _
            omega
          · rw [h4]
            show cnt S st.removed_sections ≤
              cnt S st.removed_sections + cnt S ([f.value1] : List Str)
            omega
    · have hstep : actionsStep migration_def st f = st := by
        simp [actionsStep, hkv, hsec]
      rw [hstep, if_neg hkv, if_neg hsec]
      constructor
      · omega
      · omega

theorem keysOf_count_le (migration_def : MigrationDesc) :
    ∀ (l : List ConfigurationFragment) (st : ActionState) (k : Str),
      cnt k (keysOf (l.foldl (actionsStep migration_def) st)) ≤
        cnt k (keysOf st) +
        cnt k ((l.filter (fun f => f.kind == ConfigKind.KeyValue)).map
          (fun f => f.value1)) := by
  intro l
  induction l with
  | nil => intro st k; simp [cnt]
  | cons f rest ih =>
    intro st k
    have hstep := (actionsStep_counts migration_def st f k k).1
    have hrec := ih (actionsStep migration_def st f) k
    show cnt k (keysOf (rest.foldl (actionsStep migration_def)
      (actionsStep migration_def st f))) ≤ _
    by_cases hkv : f.kind = ConfigKind.KeyValue
    · rw [if_pos hkv] at hstep
      have hfil : (f :: rest).filter (fun g => g.kind == ConfigKind.KeyValue) =
          f :: rest.filter (fun g => g.kind == ConfigKind.KeyValue) := by
        rw [List.filter_cons]
        simp [hkv]
      rw [hfil, List.map_cons]
      have hexp : cnt k (f.value1 :: (rest.filter (fun g => g.kind == ConfigKind.KeyValue)).map
          (fun g => g.value1)) = (if f.value1 = k then 1 else 0) +
          cnt k ((rest.filter (fun g => g.kind == ConfigKind.KeyValue)).map
            (fun g => g.value1)) := rfl
      have hsing : cnt k ([f.value1] : List Str) =
          (if f.value1 = k then 1 else 0) + 0 := rfl
      omega
    · rw [if_neg hkv] at hstep
      have hnil : cnt k ([] : List Str) = 0 := rfl
      have hfil : (f :: rest).filter (fun g => g.kind == ConfigKind.KeyValue) =
          rest.filter (fun g => g.kind == ConfigKind.KeyValue) := by
        rw [List.filter_cons]
        simp [hkv]
      rw [hfil]
      omega

theorem rems_count_le (migration_def : MigrationDesc) :
    ∀ (l : List ConfigurationFragment) (st : ActionState) (S : Str),
      cnt S ((l.foldl (actionsStep migration_def) st).removed_sections) ≤
        cnt S st.removed_sections +
        cnt S ((l.filter (fun f => f.kind == ConfigKind.Section)).map
          (fun f => f.value1)) := by
  intro l
  induction l with
  | nil => intro st S; simp [cnt]
  | cons f rest ih =>
    intro st S
    have hstep := (actionsStep_counts migration_def st f S S).2
    have hrec := ih (actionsStep migration_def st f) S
    show cnt S ((rest.foldl (actionsStep migration_def)
      (actionsStep migration_def st f)).removed_sections) ≤ _
    by_cases hsec : f.kind = ConfigKind.Section
    · rw [if_pos hsec] at hstep
      have hfil : (f :: rest).filter (fun g => g.kind == ConfigKind.Section) =
          f :: rest.filter (fun g => g.kind == ConfigKind.Section) := by
        rw [List.filter_cons]
        simp [hsec]
      rw [hfil, List.map_cons]
      have hexp : cnt S (f.value1 :: (rest.filter (fun g => g.kind == ConfigKind.Section)).map
          (fun g => g.value1)) = (if f.value1 = S then 1 else 0) +
          cnt S ((rest.filter (fun g => g.kind == ConfigKind.Section)).map
            (fun g => g.value1)) := rfl
      have hsing : cnt S ([f.value1] : List Str) =
          (if f.value1 = S then 1 else 0) + 0 := rfl
      omega
    · rw [if_neg hsec] at hstep
      have hnil : cnt S ([] : List Str) = 0 := rfl
      have hfil : (f :: rest).filter (fun g => g.kind == ConfigKind.Section) =
          rest.filter (fun g => g.kind == ConfigKind.Section) := by
        rw [List.filter_cons]
        simp [hsec]
      rw [hfil]
      omega

/-- Invariant of `migration_def_to_actions` under a description without
iterables of steps: the original section always equals the current
section, the active key dictionary is the one the description assigns
to the current section, every key action was recorded for a section
whose description value is a key dictionary, every removed section has
the remove value, and every renamed section has the single move-section
value naming its target. -/
theorem actions_fold_inv (migration_def : MigrationDesc)
    (hsimp : ∀ e ∈ migration_def, noStepsB e.2 = true) :
    ∀ (l : List ConfigurationFragment) (st : ActionState),
      st.original_section = st.sect →
      (∀ d, st.migration_key_desc = some d →
        assocGet migration_def st.sect = some (MigSectionOrder.keys d)) →
      (∀ e ∈ st.renamed_keys, ∃ d, assocGet migration_def e.1 = some (MigSectionOrder.keys d)) →
      (∀ e ∈ st.removed_keys, ∃ d, assocGet migration_def e.1 = some (MigSectionOrder.keys d)) →
      (∀ e ∈ st.moved_keys, ∃ d, assocGet migration_def e.1 = some (MigSectionOrder.keys d)) →
      (∀ R ∈ st.removed_sections, assocGet migration_def R = some MigSectionOrder.remove) →
      (∀ e ∈ st.renamed_sections,
        assocGet migration_def e.1 = some (MigSectionOrder.moveSection e.2)) →
      ((l.foldl (actionsStep migration_def) st).original_section =
         (l.foldl (actionsStep migration_def) st).sect ∧
       (∀ e ∈ (l.foldl (actionsStep migration_def) st).renamed_keys,
         ∃ d, assocGet migration_def e.1 = some (MigSectionOrder.keys d)) ∧
       (∀ e ∈ (l.foldl (actionsStep migration_def) st).removed_keys,
         ∃ d, assocGet migration_def e.1 = some (MigSectionOrder.keys d)) ∧
       (∀ e ∈ (l.foldl (actionsStep migration_def) st).moved_keys,
         ∃ d, assocGet migration_def e.1 = some (MigSectionOrder.keys d)) ∧
       (∀ R ∈ (l.foldl (actionsStep migration_def) st).removed_sections,
         assocGet migration_def R = some MigSectionOrder.remove) ∧
       (∀ e ∈ (l.foldl (actionsStep migration_def) st).renamed_sections,
         assocGet migration_def e.1 = some (MigSectionOrder.moveSection e.2))) := by
  intro l
  induction l with
  | nil =>
    intro st h1 h2 h3 h4 h5 h6 h7
    exact ⟨h1, h3, h4, h5, h6, h7⟩
  | cons f rest ih =>
    intro st h1 h2 h3 h4 h5 h6 h7
    rw [List.foldl_cons]
    by_cases hkv : f.kind = ConfigKind.KeyValue
    · cases hmk : st.migration_key_desc with
      | none =>
        have hstep : actionsStep migration_def st f = st := by
          simp [actionsStep, hkv, hmk]
        rw [hstep]
        exact ih st h1 h2 h3 h4 h5 h6 h7
      | some d =>
        by_cases hd : d = []
        · have hstep : actionsStep migration_def st f = st := by
            simp [actionsStep, hkv, hmk, hd]
          rw [hstep]
          exact ih st h1 h2 h3 h4 h5 h6 h7
        · cases hga : assocGet d f.value1 with
          | none =>
            have hstep : actionsStep migration_def st f = st := by
              simp [actionsStep, hkv, hmk, hd, hga]
            rw [hstep]
            exact ih st h1 h2 h3 h4 h5 h6 h7
          | some ko =>
            cases ko with
            | remove =>
              have hstep : actionsStep migration_def st f =
                  { st with removed_keys := st.removed_keys ++ [(st.sect, f.value1)] } := by
                simp [actionsStep, hkv, hmk, hd, hga]
              rw [hstep]
              refine ih _ h1 h2 h3 ?_ h5 h6 h7
              intro e he
              rcases List.mem_append.mp he with hold | hnew
              · exact h4 e hold
              · rw [List.mem_singleton.mp hnew]
                exact ⟨d, h2 d hmk⟩
            | update os ok ov =>
              by_cases hts : (updateCall os ok ov st.sect f.value1 f.value2).1 = st.sect
              · have hstep : actionsStep migration_def st f =
                    { st with renamed_keys := st.renamed_keys ++
                      [(st.original_section, f.value1,
                        (updateCall os ok ov st.sect f.value1 f.value2).2.1,
                        (updateCall os ok ov st.sect f.value1 f.value2).2.2)] } := by
                  simp [actionsStep, hkv, hmk, hd, hga, hts]
                rw [hstep]
                refine ih _ h1 h2 ?_ h4 h5 h6 h7
                intro e he
                rcases List.mem_append.mp he with hold | hnew
                · exact h3 e hold
                · rw [List.mem_singleton.mp hnew]
                  show ∃ d2, assocGet migration_def st.original_section =
                    some (MigSectionOrder.keys d2)
                  rw [h1]
                  exact ⟨d, h2 d hmk⟩
              · have hstep : actionsStep migration_def st f =
                    { st with moved_keys := st.moved_keys ++
                      [(st.original_section, f.value1,
                        (updateCall os ok ov st.sect f.value1 f.value2).1,
                        (updateCall os ok ov st.sect f.value1 f.value2).2.1,
                        (updateCall os ok ov st.sect f.value1 f.value2).2.2)] } := by
                  simp [actionsStep, hkv, hmk, hd, hga, hts]
                rw [hstep]
                refine ih _ h1 h2 h3 h4 ?_ h6 h7
                intro e he
                rcases List.mem_append.mp he with hold | hnew
                · exact h5 e hold
                · rw [List.mem_singleton.mp hnew]
                  show ∃ d2, assocGet migration_def st.original_section =
                    some (MigSectionOrder.keys d2)
                  rw [h1]
                  exact ⟨d, h2 d hmk⟩
    · by_cases hsec : f.kind = ConfigKind.Section
      · cases hga : assocGet migration_def f.value1 with
        | none =>
          have hstep : actionsStep migration_def st f =
              { st with migration_key_desc := none, sect := f.value1,
                        original_section := f.value1 } := by
            simp [actionsStep, hkv, hsec, hga]
          rw [hstep]
          refine ih _ rfl ?_ h3 h4 h5 h6 h7
          intro d hd
          cases hd
        | some so =>
          cases so with
          | remove =>
            have hstep : actionsStep migration_def st f =
                { st with migration_key_desc := none, sect := f.value1,
                          original_section := f.value1,
                          removed_sections := st.removed_sections ++ [f.value1] } := by
              simp [actionsStep, hkv, hsec, hga]
            rw [hstep]
            refine ih _ rfl ?_ h3 h4 h5 ?_ h7
            · intro d hd
              cases hd
            · intro R hR
              rcases List.mem_append.mp hR with hold | hnew
              · exact h6 R hold
              · rw [List.mem_singleton.mp hnew]
                exact hga
          | moveSection name =>
            have hstep : actionsStep migration_def st f =
                { st with migration_key_desc := none, sect := f.value1,
                          original_section := f.value1,
                          renamed_sections := st.renamed_sections ++ [(f.value1, name)] } := by
              simp [actionsStep, hkv, hsec, hga]
            rw [hstep]
            refine ih _ rfl ?_ h3 h4 h5 h6 ?_
            · intro d hd
              cases hd
            · intro e he
              rcases List.mem_append.mp he with hold | hnew
              · exact h7 e hold
              · rw [List.mem_singleton.mp hnew]
                exact hga
          | keys d =>
            have hstep : actionsStep migration_def st f =
                { st with migration_key_desc := some d, sect := f.value1,
                          original_section := f.value1 } := by
              simp [actionsStep, hkv, hsec, hga]
            rw [hstep]
            refine ih _ rfl ?_ h3 h4 h5 h6 h7
            intro d2 hd2
            injection hd2 with hdd
            subst hdd
            exact hga
          | steps lsteps =>
            exact absurd (hsimp (f.value1, MigSectionOrder.steps lsteps)
              (assocGet_mem migration_def f.value1 _ hga)) (by simp [noStepsB])
      · have hstep : actionsStep migration_def st f = st := by
          simp [actionsStep, hkv, hsec]
        rw [hstep]
        exact ih st h1 h2 h3 h4 h5 h6 h7

/-- With globally distinct key names, the keys consumed by the derived
key actions are pairwise distinct. -/
theorem keysOf_nodup (fragments : List ConfigurationFragment) (migration_def : MigrationDesc)
    (hkeys : ((fragments.filter (fun f => f.kind == ConfigKind.KeyValue)).map
      (fun f => f.value1)).Nodup) :
    (keysOf (fragments.foldl (actionsStep migration_def) initActionState)).Nodup := by
  rw [nodup_iff_cnt] at hkeys ⊢
  intro a
  have h1 := keysOf_count_le migration_def fragments initActionState a
  have h2 : cnt a (keysOf initActionState) = 0 := rfl
  have h3 := hkeys a
  omega

/-- With globally distinct header names, the removed-sections list is
duplicate free. -/
theorem rems_nodup (fragments : List ConfigurationFragment) (migration_def : MigrationDesc)
    (hsec : ((fragments.filter (fun f => f.kind == ConfigKind.Section)).map
      (fun f => f.value1)).Nodup) :
    ((fragments.foldl (actionsStep migration_def) initActionState).removed_sections).Nodup := by
  rw [nodup_iff_cnt] at hsec ⊢
  intro a
  have h1 := rems_count_le migration_def fragments initActionState a
  have h2 : cnt a (initActionState.removed_sections) = 0 := rfl
  have h3 := hsec a
  omega

theorem renameKeyRegs_fst (fragments : List ConfigurationFragment)
    (spans : List (Str × List (Nat × Nat))) :
    ∀ rk : List (Str × Str × Str × Str),
      (renameKeyRegs fragments spans rk).map Prod.fst =
        (rk.map (fun e => kidx fragments spans e.1 e.2.1)).foldr (· ++ ·) [] := by
  intro rk
  induction rk with
  | nil => rfl
  | cons e rest ih =>
    show ((iter_key_fragment fragments spans e.1 e.2.1).map
      (fun p => (p.1, [comment_out p.2, newline_fragment, mkKeyValue e.2.2.1 e.2.2.2]))
      ++ renameKeyRegs fragments spans rest).map Prod.fst = _
    rw [List.map_append, ih]
    show _ = kidx fragments spans e.1 e.2.1 ++ _
    congr 1
    rw [List.map_map]
    rfl

theorem removeSectionRegs_fst (fragments : List ConfigurationFragment)
    (spans : List (Str × List (Nat × Nat))) :
    ∀ rems : List Str,
      (removeSectionRegs fragments spans rems).map Prod.fst =
        (rems.map (fun S => cidx fragments spans S)).foldr (· ++ ·) [] := by
  intro rems
  induction rems with
  | nil => rfl
  | cons S rest ih =>
    show (covChunk fragments spans S ++ removeSectionRegs fragments spans rest).map
      Prod.fst = _
    rw [List.map_append, ih]
    rfl

theorem removeMoveKeyRegs_fst (fragments : List ConfigurationFragment)
    (spans : List (Str × List (Nat × Nat))) :
    ∀ pairs : List (Str × Str),
      (removeMoveKeyRegs fragments spans pairs).map Prod.fst =
        (pairs.map (fun t => kidx fragments spans t.1 t.2)).foldr (· ++ ·) [] := by
  intro pairs
  induction pairs with
  | nil => rfl
  | cons t rest ih =>
    show ((iter_key_fragment fragments spans t.1 t.2).map
      (fun p => (p.1, [comment_out p.2]))
      ++ removeMoveKeyRegs fragments spans rest).map Prod.fst = _
    rw [List.map_append, ih]
    show _ = kidx fragments spans t.1 t.2 ++ _
    congr 1
    rw [List.map_map]
    rfl

/-- One scan step either leaves the renamed-sections list unchanged or,
at a Section fragment, appends a single rename of that header`s name. -/
theorem actionsStep_rs (migration_def : MigrationDesc)
    (hsimp : ∀ e ∈ migration_def, noStepsB e.2 = true)
    (st : ActionState) (f : ConfigurationFragment) :
    (actionsStep migration_def st f).renamed_sections = st.renamed_sections ∨
    (f.kind = ConfigKind.Section ∧ ∃ name,
      (actionsStep migration_def st f).renamed_sections =
        st.renamed_sections ++ [(f.value1, name)]) := by
  by_cases hkv : f.kind = ConfigKind.KeyValue
  · cases hmk : st.migration_key_desc with
    | none =>
      have hstep : actionsStep migration_def st f = st := by
        simp [actionsStep, hkv, hmk]
      rw [hstep]
      exact Or.inl rfl
    | some d =>
      by_cases hd : d = []
      · have hstep : actionsStep migration_def st f = st := by
          simp [actionsStep, hkv, hmk, hd]
        rw [hstep]
        exact Or.inl rfl
      · cases hga : assocGet d f.value1 with
        | none =>
          have hstep : actionsStep migration_def st f = st := by
            simp [actionsStep, hkv, hmk, hd, hga]
          rw [hstep]
          exact Or.inl rfl
        | some ko =>
          cases ko with
          | remove =>
            have hstep : actionsStep migration_def st f =
                { st with removed_keys := st.removed_keys ++ [(st.sect, f.value1)] } := by
              simp [actionsStep, hkv, hmk, hd, hga]
            rw [hstep]
            exact Or.inl rfl
          | update os ok ov =>
            by_cases hts : (updateCall os ok ov st.sect f.value1 f.value2).1 = st.sect
            · have hstep : actionsStep migration_def st f =
                  { st with renamed_keys := st.renamed_keys ++
                    [(st.original_section, f.value1,
                      (updateCall os ok ov st.sect f.value1 f.value2).2.1,
                      (updateCall os ok ov st.sect f.value1 f.value2).2.2)] } := by
                simp [actionsStep, hkv, hmk, hd, hga, hts]
              rw [hstep]
              exact Or.inl rfl
            · have hstep : actionsStep migration_def st f =
                  { st with moved_keys := st.moved_keys ++
                    [(st.original_section, f.value1,
                      (updateCall os ok ov st.sect f.value1 f.value2).1,
                      (updateCall os ok ov st.sect f.value1 f.value2).2.1,
                      (updateCall os ok ov st.sect f.value1 f.value2).2.2)] } := by
                simp [actionsStep, hkv, hmk, hd, hga, hts]
              rw [hstep]
              exact Or.inl rfl
  · by_cases hsec : f.kind = ConfigKind.Section
    · cases hga : assocGet migration_def f.value1 with
      | none =>
        have hstep : actionsStep migration_def st f =
            { st with migration_key_desc := none, sect := f.value1,
                      original_section := f.value1 } := by
          simp [actionsStep, hkv, hsec, hga]
        rw [hstep]
        exact Or.inl rfl
      | some so =>
        cases so with
        | remove =>
          have hstep : actionsStep migration_def st f =
              { st with migration_key_desc := none, sect := f.value1,
                        original_section := f.value1,
                        removed_sections := st.removed_sections ++ [f.value1] } := by
            simp [actionsStep, hkv, hsec, hga]
          rw [hstep]
          exact Or.inl rfl
        | moveSection name =>
          have hstep : actionsStep migration_def st f =
              { st with migration_key_desc := none, sect := f.value1,
                        original_section := f.value1,
                        renamed_sections := st.renamed_sections ++ [(f.value1, name)] } := by
            simp [actionsStep, hkv, hsec, hga]
          rw [hstep]
          exact Or.inr ⟨hsec, name, rfl⟩
        | keys d =>
          have hstep : actionsStep migration_def st f =
              { st with migration_key_desc := some d, sect := f.value1,
                        original_section := f.value1 } := by
            simp [actionsStep, hkv, hsec, hga]
          rw [hstep]
          exact Or.inl rfl
        | steps lsteps =>
          exact absurd (hsimp (f.value1, MigSectionOrder.steps lsteps)
            (assocGet_mem migration_def f.value1 _ hga)) (by simp [noStepsB])
    · have hstep : actionsStep migration_def st f = st := by
        simp [actionsStep, hkv, hsec]
      rw [hstep]
      exact Or.inl rfl

theorem rsfst_count_le (migration_def : MigrationDesc)
    (hsimp : ∀ e ∈ migration_def, noStepsB e.2 = true) :
    ∀ (l : List ConfigurationFragment) (st : ActionState) (S : Str),
      cnt S (((l.foldl (actionsStep migration_def) st).renamed_sections).map Prod.fst) ≤
        cnt S ((st.renamed_sections).map Prod.fst) +
        cnt S ((l.filter (fun f => f.kind == ConfigKind.Section)).map
          (fun f => f.value1)) := by
  intro l
  induction l with
  | nil => intro st S; simp [cnt]
  | cons f rest ih =>
    intro st S
    have hrec := ih (actionsStep migration_def st f) S
    show cnt S (((rest.foldl (actionsStep migration_def)
      (actionsStep migration_def st f)).renamed_sections).map Prod.fst) ≤ _
    by_cases hsec : f.kind = ConfigKind.Section
    · have hfil : (f :: rest).filter (fun g => g.kind == ConfigKind.Section) =
          f :: rest.filter (fun g => g.kind == ConfigKind.Section) := by
        rw [List.filter_cons]
        simp [hsec]
      rw [hfil, List.map_cons]
      have hexp : cnt S (f.value1 :: (rest.filter (fun g => g.kind == ConfigKind.Section)).map
          (fun g => g.value1)) = (if f.value1 = S then 1 else 0) +
          cnt S ((rest.filter (fun g => g.kind == ConfigKind.Section)).map
            (fun g => g.value1)) := rfl
      rcases actionsStep_rs migration_def hsimp st f with heq | ⟨-, name, heq⟩
      · rw [heq] at hrec
        omega
      · rw [heq, List.map_append, cnt_append] at hrec
        have hsing : cnt S (([(f.value1, name)] : List (Str × Str)).map Prod.fst) =
            (if f.value1 = S then 1 else 0) + 0 := rfl
        omega
    · have hfil : (f :: rest).filter (fun g => g.kind == ConfigKind.Section) =
          rest.filter (fun g => g.kind == ConfigKind.Section) := by
        rw [List.filter_cons]
        simp [hsec]
      rw [hfil]
      rcases actionsStep_rs migration_def hsimp st f with heq | ⟨hfsec, -, -⟩
      · rw [heq] at hrec
        omega
      · exact absurd hfsec hsec

/-- With globally distinct header names, the old names of the renamed
sections are pairwise distinct. -/
theorem rsfst_nodup (fragments : List ConfigurationFragment) (migration_def : MigrationDesc)
    (hsimp : ∀ e ∈ migration_def, noStepsB e.2 = true)
    (hsec : ((fragments.filter (fun f => f.kind == ConfigKind.Section)).map
      (fun f => f.value1)).Nodup) :
    (((fragments.foldl (actionsStep migration_def) initActionState).renamed_sections).map
      Prod.fst).Nodup := by
  rw [nodup_iff_cnt] at hsec ⊢
  intro a
  have h1 := rsfst_count_le migration_def hsimp fragments initActionState a
  have h2 : cnt a ((initActionState.renamed_sections).map Prod.fst) = 0 := rfl
  have h3 := hsec a
  omega

/-- The indices registered for one renamed section: the start index of
every span recorded under the old name. -/
def sidx (spans : List (Str × List (Nat × Nat))) (S : Str) : List Nat :=
  (spansGet spans S).map (fun sp => sp.1)

theorem sidx_sub_iter (fragments : List ConfigurationFragment) (S : Str) (i : Nat) :
    i ∈ sidx (fragments_to_spans_of_sections fragments) S →
    i ∈ iter_from_spans (spansGet (fragments_to_spans_of_sections fragments) S) := by
  intro h
  obtain ⟨sp, hsp, hi⟩ := List.mem_map.mp h
  have hlt : sp.1 < sp.2 :=
    ((spans_char fragments).1 (S, sp) (mem_spansGet_named _ S sp hsp)).1
  have hi2 : sp.1 = i := hi
  refine (mem_iter_from_spans _ i).mpr ⟨sp, hsp, ?_, ?_⟩
  · omega
  · omega

theorem nodup_fst_of_disj : ∀ l : List (Nat × Nat),
    (∀ sp ∈ l, sp.1 < sp.2) → List.Pairwise spanDisj l →
    (l.map (fun sp => sp.1)).Nodup := by
  intro l
  induction l with
  | nil => intro h1 h2; simp
  | cons s rest ih =>
    intro hall hpw
    rw [List.map_cons, List.nodup_cons]
    obtain ⟨hhead, htail⟩ := List.pairwise_cons.mp hpw
    refine ⟨?_, ih (fun sp hsp => hall sp (by simp [hsp])) htail⟩
    intro hmem
    obtain ⟨t, ht, hteq⟩ := List.mem_map.mp hmem
    have h1 := hall s (by simp)
    have h2 := hall t (by simp [ht])
    have h3 := hhead t ht
    have hteq2 : t.1 = s.1 := hteq
    rcases h3 with h | h
    · omega
    · omega

theorem sidx_nodup (fragments : List ConfigurationFragment) (S : Str) :
    (sidx (fragments_to_spans_of_sections fragments) S).Nodup := by
  rw [sidx]
  refine nodup_fst_of_disj _ ?_ ?_
  · intro sp hsp
    exact ((spans_char fragments).1 (S, sp) (mem_spansGet_named _ S sp hsp)).1
  · exact List.Pairwise.sublist (spansGet_sublist _ S) (spans_char fragments).2

theorem nodup_renchunks (fragments : List ConfigurationFragment) (rs : List (Str × Str))
    (hnd : (rs.map Prod.fst).Nodup) :
    ((rs.map (fun e =>
      sidx (fragments_to_spans_of_sections fragments) e.1)).foldr (· ++ ·) []).Nodup := by
  refine nodup_concatAll _ ?_ ?_
  · intro l hl
    obtain ⟨e, he, rfl⟩ := List.mem_map.mp hl
    exact sidx_nodup fragments e.1
  · refine List.pairwise_map.mpr ?_
    have hpw : List.Pairwise (fun a b : Str × Str => a.1 ≠ b.1) rs :=
      (List.pairwise_map).mp hnd
    refine hpw.imp ?_
    intro a b hab
    intro i hia hib
    exact hab
      ((sectAt_of_mem_iter fragments a.1 i (sidx_sub_iter fragments a.1 i hia)).symm.trans
        (sectAt_of_mem_iter fragments b.1 i (sidx_sub_iter fragments b.1 i hib)))

theorem renameSectionRegs_fst (fragments : List ConfigurationFragment)
    (spans : List (Str × List (Nat × Nat))) :
    ∀ rs : List (Str × Str),
      (renameSectionRegs fragments spans rs).map Prod.fst =
        (rs.map (fun e => sidx spans e.1)).foldr (· ++ ·) [] := by
  intro rs
  induction rs with
  | nil => rfl
  | cons e rest ih =>
    show ((spansGet spans e.1).map (fun (sp : Nat × Nat) =>
      (sp.1, (match fragments.get? sp.1 with
              | some fragment => [comment_out fragment, newline_fragment, mkSection e.2]
              | none => []))) ++ renameSectionRegs fragments spans rest).map Prod.fst = _
    rw [List.map_append, ih]
    show _ = sidx spans e.1 ++ _
    congr 1
    rw [List.map_map]
    rfl

theorem nodup_append4 {α : Type} {A B C D : List α}
    (hA : A.Nodup) (hB : B.Nodup) (hC : C.Nodup) (hD : D.Nodup)
    (hAB : ∀ x ∈ A, x ∉ B) (hAC : ∀ x ∈ A, x ∉ C) (hAD : ∀ x ∈ A, x ∉ D)
    (hBC : ∀ x ∈ B, x ∉ C) (hBD : ∀ x ∈ B, x ∉ D) (hCD : ∀ x ∈ C, x ∉ D) :
    (A ++ B ++ C ++ D).Nodup := by
  rw [List.append_assoc, List.append_assoc, List.nodup_append]
  refine ⟨hA, ?_, ?_⟩
  · rw [List.nodup_append]
    refine ⟨hB, ?_, ?_⟩
    · rw [List.nodup_append]
      exact ⟨hC, hD, hCD⟩
    · intro b hb hcon
      rcases List.mem_append.mp hcon with h | h
      · exact hBC b hb h
      · exact hBD b hb h
  · intro a ha hcon
    rcases List.mem_append.mp hcon with h | hcon2
    · exact hAB a ha h
    · rcases List.mem_append.mp hcon2 with h | h
      · exact hAC a ha h
      · exact hAD a ha h


/-- The assembled no-double-edit argument over explicit action lists:
key actions with pairwise distinct keys, removed sections with pairwise
distinct names, renamed sections with pairwise distinct old names, and
sections that cannot simultaneously carry two different description
values, give pairwise distinct registration indices. -/
theorem regs_nodup_general (fragments : List ConfigurationFragment)
    (migration_def : MigrationDesc)
    (rk : List (Str × Str × Str × Str)) (mk : List (Str × Str × Str × Str × Str))
    (remk : List (Str × Str)) (rems : List Str) (rs : List (Str × Str))
    (hrkd : ∀ e ∈ rk, ∃ d, assocGet migration_def e.1 = some (MigSectionOrder.keys d))
    (hremkd : ∀ e ∈ remk, ∃ d, assocGet migration_def e.1 = some (MigSectionOrder.keys d))
    (hmkd : ∀ e ∈ mk, ∃ d, assocGet migration_def e.1 = some (MigSectionOrder.keys d))
    (hremsd : ∀ R ∈ rems, assocGet migration_def R = some MigSectionOrder.remove)
    (hrsd : ∀ e ∈ rs, assocGet migration_def e.1 = some (MigSectionOrder.moveSection e.2))
    (hkeys : (rk.map (fun e => e.2.1) ++
      (remk.map (fun e => e.2) ++ mk.map (fun e => e.2.1))).Nodup)
    (hrems : rems.Nodup)
    (hrsfst : (rs.map Prod.fst).Nodup) :
    ((renameKeyRegs fragments (fragments_to_spans_of_sections fragments) rk
      ++ removeSectionRegs fragments (fragments_to_spans_of_sections fragments) rems
      ++ removeMoveKeyRegs fragments (fragments_to_spans_of_sections fragments)
        (remk ++ mk.map (fun t => (t.1, t.2.1)))
      ++ renameSectionRegs fragments (fragments_to_spans_of_sections fragments) rs).map
      Prod.fst).Nodup := by
  obtain ⟨hk1, hk23, hkdisj⟩ := List.nodup_append.mp hkeys
  rw [List.map_append, List.map_append, List.map_append, renameKeyRegs_fst,
    removeSectionRegs_fst, removeMoveKeyRegs_fst, renameSectionRegs_fst]
  have hpairs_snd : ((remk ++ mk.map (fun t => (t.1, t.2.1))).map Prod.snd).Nodup := by
    rw [List.map_append, List.map_map]
    exact hk23
  have hpairs_desc : ∀ t ∈ remk ++ mk.map (fun t => (t.1, t.2.1)),
      ∃ d, assocGet migration_def t.1 = some (MigSectionOrder.keys d) := by
    intro t ht
    rcases List.mem_append.mp ht with h | h
    · exact hremkd t h
    · obtain ⟨m, hm, rfl⟩ := List.mem_map.mp h
      exact hmkd m hm
  refine nodup_append4 ?_ ?_ ?_ ?_ ?_ ?_ ?_ ?_ ?_ ?_
  · have hconv : rk.map (fun e =>
        kidx fragments (fragments_to_spans_of_sections fragments) e.1 e.2.1) =
        (rk.map (fun e => (e.1, e.2.1))).map
          (fun e => kidx fragments (fragments_to_spans_of_sections fragments) e.1 e.2) := by
      rw [List.map_map]
      rfl
    rw [hconv]
    refine nodup_keychunks fragments _ ?_
    rw [List.map_map]
    exact hk1
  · exact nodup_secchunks fragments rems hrems
  · exact nodup_keychunks fragments _ hpairs_snd
  · exact nodup_renchunks fragments rs hrsfst
  · -- rename-key indices never meet remove-section indices
    intro x hxA hxB
    obtain ⟨e, he, hxk⟩ := (mem_chunks _ rk x).mp hxA
    obtain ⟨R, hR, hxc⟩ := (mem_chunks _ rems x).mp hxB
    have h1 : sectAt fragments x = e.1 :=
      sectAt_of_mem_iter fragments e.1 x
        ((kidx_mem fragments (fragments_to_spans_of_sections fragments) e.1 e.2.1 x).mp hxk).1
    have h2 : sectAt fragments x = R :=
      sectAt_of_mem_iter fragments R x
        ((cidx_mem fragments (fragments_to_spans_of_sections fragments) R x).mp hxc).1
    obtain ⟨d, hd⟩ := hrkd e he
    have hrem := hremsd R hR
    have heq : e.1 = R := h1.symm.trans h2
    rw [heq, hrem] at hd
    injection hd with hx
    cases hx
  · -- rename-key indices never meet remove-key or move-key indices
    intro x hxA hxC
    obtain ⟨e, he, hxk⟩ := (mem_chunks _ rk x).mp hxA
    obtain ⟨t, ht, hxt⟩ := (mem_chunks _ (remk ++ mk.map (fun t => (t.1, t.2.1))) x).mp hxC
    obtain ⟨-, fr, hget, -, hkey⟩ :=
      (kidx_mem fragments (fragments_to_spans_of_sections fragments) e.1 e.2.1 x).mp hxk
    obtain ⟨-, fr2, hget2, -, hkey2⟩ :=
      (kidx_mem fragments (fragments_to_spans_of_sections fragments) t.1 t.2 x).mp hxt
    rw [hget] at hget2
    injection hget2 with hfr
    subst hfr
    have hkk : e.2.1 = t.2 := hkey.trans hkey2.symm
    refine hkdisj (List.mem_map.mpr ⟨e, he, rfl⟩) ?_
    rw [hkk]
    rcases List.mem_append.mp ht with h | h
    · exact List.mem_append.mpr (Or.inl (List.mem_map.mpr ⟨t, h, rfl⟩))
    · obtain ⟨m, hm, rfl⟩ := List.mem_map.mp h
      exact List.mem_append.mpr (Or.inr (List.mem_map.mpr ⟨m, hm, rfl⟩))
  · -- rename-key indices never meet rename-section indices
    intro x hxA hxD
    obtain ⟨e, he, hxk⟩ := (mem_chunks _ rk x).mp hxA
    obtain ⟨e2, he2, hxs⟩ := (mem_chunks _ rs x).mp hxD
    have h1 : sectAt fragments x = e.1 :=
      sectAt_of_mem_iter fragments e.1 x
        ((kidx_mem fragments (fragments_to_spans_of_sections fragments) e.1 e.2.1 x).mp hxk).1
    have h2 : sectAt fragments x = e2.1 :=
      sectAt_of_mem_iter fragments e2.1 x (sidx_sub_iter fragments e2.1 x hxs)
    obtain ⟨d, hd⟩ := hrkd e he
    have hmv := hrsd e2 he2
    have heq : e.1 = e2.1 := h1.symm.trans h2
    rw [heq, hmv] at hd
    injection hd with hx
    cases hx
  · -- remove-section indices never meet remove-key or move-key indices
    intro x hxB hxC
    obtain ⟨R, hR, hxc⟩ := (mem_chunks _ rems x).mp hxB
    obtain ⟨t, ht, hxt⟩ := (mem_chunks _ (remk ++ mk.map (fun t => (t.1, t.2.1))) x).mp hxC
    have h1 : sectAt fragments x = R :=
      sectAt_of_mem_iter fragments R x
        ((cidx_mem fragments (fragments_to_spans_of_sections fragments) R x).mp hxc).1
    have h2 : sectAt fragments x = t.1 :=
      sectAt_of_mem_iter fragments t.1 x
        ((kidx_mem fragments (fragments_to_spans_of_sections fragments) t.1 t.2 x).mp hxt).1
    obtain ⟨d, hd⟩ := hpairs_desc t ht
    have hrem := hremsd R hR
    have heq : t.1 = R := h2.symm.trans h1
    rw [heq, hrem] at hd
    injection hd with hx
    cases hx
  · -- remove-section indices never meet rename-section indices
    intro x hxB hxD
    obtain ⟨R, hR, hxc⟩ := (mem_chunks _ rems x).mp hxB
    obtain ⟨e2, he2, hxs⟩ := (mem_chunks _ rs x).mp hxD
    have h1 : sectAt fragments x = R :=
      sectAt_of_mem_iter fragments R x
        ((cidx_mem fragments (fragments_to_spans_of_sections fragments) R x).mp hxc).1
    have h2 : sectAt fragments x = e2.1 :=
      sectAt_of_mem_iter fragments e2.1 x (sidx_sub_iter fragments e2.1 x hxs)
    have hrem := hremsd R hR
    have hmv := hrsd e2 he2
    have heq : e2.1 = R := h2.symm.trans h1
    rw [heq, hrem] at hmv
    injection hmv with hx
    cases hx
  · -- remove-key and move-key indices never meet rename-section indices
    intro x hxC hxD
    obtain ⟨t, ht, hxt⟩ := (mem_chunks _ (remk ++ mk.map (fun t => (t.1, t.2.1))) x).mp hxC
    obtain ⟨e2, he2, hxs⟩ := (mem_chunks _ rs x).mp hxD
    have h1 : sectAt fragments x = t.1 :=
      sectAt_of_mem_iter fragments t.1 x
        ((kidx_mem fragments (fragments_to_spans_of_sections fragments) t.1 t.2 x).mp hxt).1
    have h2 : sectAt fragments x = e2.1 :=
      sectAt_of_mem_iter fragments e2.1 x (sidx_sub_iter fragments e2.1 x hxs)
    obtain ⟨d, hd⟩ := hpairs_desc t ht
    have hmv := hrsd e2 he2
    have heq : t.1 = e2.1 := h1.symm.trans h2
    rw [heq, hmv] at hd
    injection hd with hx
    cases hx

/-- C6 (amended: the fragment sequence has pairwise distinct Section
names and pairwise distinct KeyValue keys, and the migration
description contains no iterable of steps, each value being a
whole-section removal, a key dictionary, or a single section move).
Under these conditions, during one call to `migrate` each fragment
index is assigned a replacement at most once across all five rule
kinds: the indices of the registration sequence are pairwise distinct,
so no later registration overwrites an earlier one. -/
theorem no_double_edit (fragments : List ConfigurationFragment)
    (migration_def : MigrationDesc)
    (hsimp : ∀ e ∈ migration_def, noStepsB e.2 = true)
    (hsec : ((fragments.filter (fun f => f.kind == ConfigKind.Section)).map
      (fun f => f.value1)).Nodup)
    (hkeys : ((fragments.filter (fun f => f.kind == ConfigKind.KeyValue)).map
      (fun f => f.value1)).Nodup) :
    ((migrate_registrations fragments migration_def).map Prod.fst).Nodup := by
  obtain ⟨g1, g2, g3, g4, g5, g6⟩ := actions_fold_inv migration_def hsimp fragments
    initActionState rfl (fun d hd => Option.noConfusion hd)
    (fun e he => absurd he (List.not_mem_nil e))
    (fun e he => absurd he (List.not_mem_nil e))
    (fun e he => absurd he (List.not_mem_nil e))
    (fun R hR => absurd hR (List.not_mem_nil R))
    (fun e he => absurd he (List.not_mem_nil e))
  have hkn := keysOf_nodup fragments migration_def hkeys
  have hrn := rems_nodup fragments migration_def hsec
  have hrs := rsfst_nodup fragments migration_def hsimp hsec
  show ((renameKeyRegs fragments (fragments_to_spans_of_sections fragments)
      ((fragments.foldl (actionsStep migration_def) initActionState).renamed_keys)
    ++ removeSectionRegs fragments (fragments_to_spans_of_sections fragments)
      ((fragments.foldl (actionsStep migration_def) initActionState).removed_sections)
    ++ removeMoveKeyRegs fragments (fragments_to_spans_of_sections fragments)
      ((fragments.foldl (actionsStep migration_def) initActionState).removed_keys
        ++ ((fragments.foldl (actionsStep migration_def) initActionState).moved_keys).map
          (fun t => (t.1, t.2.1)))
    ++ renameSectionRegs fragments (fragments_to_spans_of_sections fragments)
      ((fragments.foldl (actionsStep migration_def) initActionState).renamed_sections)).map
      Prod.fst).Nodup
  exact regs_nodup_general fragments migration_def _ _ _ _ _ g2 g3 g4 g5 g6 hkn hrn hrs

/-- The parse of `"[all_target_mod]\nconnection_retry_count=3\n\n"`,
used as the concrete no-double-edit witness input. -/
def fragsC6w : List ConfigurationFragment :=
  parse_configuration (str "[all_target_mod]\nconnection_retry_count=3\n\n")

/-- Witness for C6: on a concrete parse and a remove-section migration,
all three hypotheses hold and the registration indices are distinct. -/
theorem no_double_edit_witness :
    ((migrate_registrations fragsC6w
      [(str "all_target_mod", MigSectionOrder.remove)]).map Prod.fst).Nodup :=
  no_double_edit fragsC6w [(str "all_target_mod", MigSectionOrder.remove)]
    (by decide) (by decide) (by decide)
